import Mathlib

/-!
Verification of `openlr/paths_connector.cpp` (PathsConnector and its helpers).

The C++ source is shallowly embedded: edges are natural numbers (the source
uses an abstract totally ordered `Graph::Edge` value type), the road graph is a
structure of query functions mirroring the interface the connector consumes
(`GetOutgoingEdges`, `GetEndJunction`, `EdgeLength`, `IsFake`), `std::map`s
become functional maps `Nat → Option Nat`, and the `std::priority_queue` of
`State{edge, score}` ordered by `(score, edge)` becomes a list from which the
lexicographically least pair is popped.  The unbounded C++ `while` loops become
fuel-indexed recursion; the fuel actually supplied is proved sufficient for
finite graphs.  `uint32_t` scores and lengths become `Nat` (the scalar
length-units of the spec), and the `double` arithmetic of `ValidatePath`
becomes exact rational arithmetic.
-/

namespace OpenLR

/-- An edge of the road graph.  The source's `Graph::Edge` is an immutable
totally ordered value type; we represent it by a natural number key. -/
abbrev Edge := Nat

/-- Modelled from the spec: `FunctionalRoadClass` (declared in the missing
`openlr_model.hpp`) is a road-importance classification attached to a
reference point; the connector passes it through but never uses it. -/
inductive FunctionalRoadClass where
  | FRC0 | FRC1 | FRC2 | FRC3 | FRC4 | FRC5 | FRC6 | FRC7
deriving DecidableEq

/-- The road-graph interface consumed by the connector
(`GetOutgoingEdges`, end junctions, `EdgeLength`, `Edge::IsFake`), together
with the finite list of all edges of the graph (a C++ `Graph` stores finitely
many edges; `edgeList` makes that explicit for the embedding). -/
structure Graph where
  getOutgoingEdges : Nat → List Edge
  endJunction : Edge → Nat
  edgeLength : Edge → Nat
  isFake : Edge → Bool
  edgeList : List Edge

/-- `LocationReferencePoint`: the two attributes the connector reads. -/
structure LocationReferencePoint where
  m_functionalRoadClass : FunctionalRoadClass
  m_distanceToNextPoint : Nat

/-- Pointwise update of a functional map, mirroring `std::map::operator[]`
assignment. -/
def mapUpdate (m : Nat → Option Nat) (k v : Nat) : Nat → Option Nat :=
  fun x => if x = k then some v else m x

/-- `(score, edge) ≤ (score, edge)` lexicographically: the comparison used by
the source's `priority_queue` of `State`s (`make_tuple(m_score, m_edge)` with
`greater`, so the queue pops the least pair). -/
def pairLe (p q : Nat × Nat) : Prop :=
  p.1 < q.1 ∨ (p.1 = q.1 ∧ p.2 ≤ q.2)

instance : DecidablePred fun pq : (Nat × Nat) × Nat × Nat => pairLe pq.1 pq.2 :=
  fun _ => by unfold pairLe; infer_instance

instance (p q : Nat × Nat) : Decidable (pairLe p q) := by unfold pairLe; infer_instance

/-- Pop the least `(score, edge)` pair from the queue, returning it and the
remaining entries: the embedding of `q.top(); q.pop()` on the source's
min-priority queue. -/
def popMin : List (Nat × Nat) → Option ((Nat × Nat) × List (Nat × Nat))
  | [] => none
  | p :: rest =>
    match popMin rest with
    | none => some (p, [])
    | some (m, rest') => if pairLe p m then some (p, rest) else some (m, p :: rest')

/-- The relaxation loop over the outgoing edges of the popped state
(`for (auto const & e : edges) ...` in `FindShortestPath`): for each neighbour
edge whose tentative score `us + EdgeLength(e)` improves on the recorded score
(or which has no recorded score), record the score and the parent link and push
the improved state. -/
def relaxEdges (g : Graph) (u s : Nat) :
    List Edge → (Nat → Option Nat) → (Nat → Option Nat) → List (Nat × Nat) →
    (Nat → Option Nat) × (Nat → Option Nat) × List (Nat × Nat)
  | [], scores, links, q => (scores, links, q)
  | e :: es, scores, links, q =>
    let eScore := s + g.edgeLength e
    match scores e with
    | some old =>
      if eScore < old then
        relaxEdges g u s es (mapUpdate scores e eScore) (mapUpdate links e u)
          ((eScore, e) :: q)
      else
        relaxEdges g u s es scores links q
    | none =>
      relaxEdges g u s es (mapUpdate scores e eScore) (mapUpdate links e u)
        ((eScore, e) :: q)

/-- Walk the parent links back from `e` to `frm`
(`for (auto e = u; e != from; e = links[e]) path.push_back(e); path.push_back(from);`).
Produces the path in reversed order, exactly as the source builds it before its
final `reverse`.  `(links e).getD 0` mirrors `links[e]`, whose `operator[]`
would yield a default-constructed edge on a missing key. -/
def linkWalk (links : Nat → Option Nat) (frm : Nat) : Nat → Nat → Option (List Nat)
  | 0, _ => none
  | fuel + 1, e =>
    if e = frm then some [frm]
    else
      match linkWalk links frm fuel ((links e).getD 0) with
      | none => none
      | some w => some (e :: w)

/-- One fuel-indexed unfolding of the `while (!q.empty())` loop of
`FindShortestPath`.  Result `none` means the fuel ran out (never happens for
the fuel actually supplied, see `dijkstraLoop_no_fuel_exhaustion` uses);
`some none` is the source's `return false`; `some (some p)` is `return true`
with reconstructed path `p`.  The branches mirror the source line by line:
prune states over the budget, skip stale states (`us > scores[u]`, where
`scores[u]` value-reads as `getD 0`), reconstruct and return on reaching `to`,
otherwise relax all outgoing edges of the end junction. -/
def dijkstraLoop (g : Graph) (frm toE budget : Nat) :
    Nat → List (Nat × Nat) → (Nat → Option Nat) → (Nat → Option Nat) →
    Option (Option (List Nat))
  | 0, _, _, _ => none
  | fuel + 1, q, scores, links =>
    match popMin q with
    | none => some none
    | some ((s, u), q') =>
      if budget < s then
        dijkstraLoop g frm toE budget fuel q' scores links
      else if (scores u).getD 0 < s then
        dijkstraLoop g frm toE budget fuel q' scores links
      else if u = toE then
        match linkWalk links frm (g.edgeList.length + 2) u with
        | none => none
        | some w => some (some w.reverse)
      else
        match relaxEdges g u s (g.getOutgoingEdges (g.endJunction u)) scores links q' with
        | (scores', links', q'') => dijkstraLoop g frm toE budget fuel q'' scores' links'

/-- The largest edge length occurring in the graph. -/
def maxEdgeLen (g : Graph) : Nat :=
  (g.edgeList.map g.edgeLength).foldr Nat.max 0

/-- Fuel provably sufficient for `dijkstraLoop` on a finite graph. -/
def dijkstraFuel (g : Graph) (maxPathLength : Nat) : Nat :=
  g.edgeList.length * (maxPathLength + 10 + maxEdgeLen g + 1) + 2

/-- `PathsConnector::FindShortestPath`: Dijkstra's algorithm from edge `frm`
to edge `to` with budget `maxPathLength + kLengthToleranceM` (the slack
constant is 10).  `frc` is accepted but unused, as in the source.  Returns the
shortest path on success and `none` on `return false`; the out-of-fuel case of
the loop (unreachable for the supplied fuel on well-formed graphs) also maps
to `none`. -/
def FindShortestPath (g : Graph) (frm toE : Edge) (frc : FunctionalRoadClass)
    (maxPathLength : Nat) : Option (List Edge) :=
  let kLengthToleranceM : Nat := 10
  match dijkstraLoop g frm toE (maxPathLength + kLengthToleranceM)
      (dijkstraFuel g maxPathLength) [(0, frm)]
      (mapUpdate (fun _ => none) frm 0) (fun _ => none) with
  | none => none
  | some r => r

/-- `IntersectionLen`: the source sorts both vectors and counts
`set_intersection`, i.e. the cardinality of the multiset intersection. -/
def IntersectionLen (a b : List Edge) : Nat :=
  ((a : Multiset Edge) ∩ (b : Multiset Edge)).card

/-- `PrefEqualsSuff`: whether the last `len` edges of `a` equal the first
`len` edges of `b` (`equal(end(a) - len, end(a), begin(b))`). -/
def PrefEqualsSuff (a b : List Edge) (len : Nat) : Prop :=
  a.drop (a.length - len) = b.take len

instance (a b : List Edge) (len : Nat) : Decidable (PrefEqualsSuff a b len) := by
  unfold PrefEqualsSuff; infer_instance

/-- `PathOverlappingLen`: the length of the longest suffix of `a` matching a
prefix of `b`, computed as the intersection cardinality validated by
`PrefEqualsSuff`; `-1` when the intersection does not form such a clean
suffix/prefix. -/
def PathOverlappingLen (a b : List Edge) : Int :=
  let len := IntersectionLen a b
  if PrefEqualsSuff a b len then (len : Int) else -1

/-- `ValidatePath`: sum the edge lengths, compute the relative deviation from
`distanceToNextPoint`, and reject exactly when it exceeds the tolerance. -/
def ValidatePath (g : Graph) (path : List Edge) (distanceToNextPoint : Nat)
    (pathLengthTolerance : ℚ) : Bool :=
  let pathLen : ℚ := ((path.map g.edgeLength).sum : Nat)
  let pathDiffPercent : ℚ :=
    |(distanceToNextPoint : ℚ) - pathLen| / (distanceToNextPoint : ℚ)
  if pathDiffPercent > pathLengthTolerance then false else true

/-- `PathsConnector::ConnectAdjacentCandidateLines`.  If the overlap length is
non-zero: fail on `-1`, otherwise splice `from ++ to[skip:]`.  If it is zero,
search for a shortest path between the boundary edges and splice
`from[:-1] ++ path ++ to[1:]`.  `headI`/`getLastI` mirror `front()`/`back()`
(whose behaviour on an empty vector is unspecified; the default edge 0 stands
for that). -/
def ConnectAdjacentCandidateLines (g : Graph) (frm toE : List Edge)
    (frc : FunctionalRoadClass) (distanceToNextPoint : Nat) : Option (List Edge) :=
  let skip := PathOverlappingLen frm toE
  if skip ≠ 0 then
    if skip = -1 then none
    else some (frm ++ toE.drop skip.toNat)
  else
    match FindShortestPath g frm.getLastI toE.headI frc distanceToNextPoint with
    | none => none
    | some shortestPath => some (frm.dropLast ++ shortestPath ++ toE.tail)

/-- The inner double loop of `ConnectCandidates` over candidate pairs,
flattened into iteration over the pair list in `(fromInd, toInd)` order, with
the `fakePath` accumulator threaded through.  A validated path whose first or
last edge is fake is remembered (only while `fakePath` is empty) and the scan
continues; any other validated path is accepted on the spot; when the pairs
run out, a remembered fake path is accepted, else the segment fails. -/
def segmentLoop (g : Graph) (tol : ℚ) (frc : FunctionalRoadClass) (dist : Nat) :
    List (List Edge × List Edge) → List Edge → Option (List Edge)
  | [], fakePath => if fakePath.isEmpty then none else some fakePath
  | (f, t) :: ps, fakePath =>
    match ConnectAdjacentCandidateLines g f t frc dist with
    | none => segmentLoop g tol frc dist ps fakePath
    | some part =>
      if ValidatePath g part dist tol then
        if fakePath.isEmpty ∧ (g.isFake part.headI ∨ g.isFake part.getLastI) then
          segmentLoop g tol frc dist ps part
        else some part
      else segmentLoop g tol frc dist ps fakePath

/-- All `(fromCandidate, toCandidate)` pairs in the order the nested loops of
`ConnectCandidates` visit them. -/
def allPairs (fromCandidates toCandidates : List (List Edge)) :
    List (List Edge × List Edge) :=
  fromCandidates.flatMap fun f => toCandidates.map fun t => (f, t)

/-- One segment of `ConnectCandidates`: run the candidate-pair double loop
with an initially empty `fakePath`. -/
def segmentConnect (g : Graph) (tol : ℚ) (point : LocationReferencePoint)
    (fromCandidates toCandidates : List (List Edge)) : Option (List Edge) :=
  segmentLoop g tol point.m_functionalRoadClass point.m_distanceToNextPoint
    (allPairs fromCandidates toCandidates) []

/-- `PathsConnector::ConnectCandidates`.  Returns the `bool` result, the
contents of the `resultPath` out-parameter, and the number of times
`m_stat.m_noShortestPathFound` was incremented during the call.  On a failed
segment the slot is cleared and the remaining slots keep the empty vectors the
initial `resize` gave them, exactly as in the source, which returns at once. -/
def ConnectCandidates (g : Graph) (tol : ℚ) :
    List LocationReferencePoint → List (List (List Edge)) →
    Bool × List (List Edge) × Nat
  | p0 :: p1 :: ps, c0 :: c1 :: cs =>
    match segmentConnect g tol p0 c0 c1 with
    | none => (false, [] :: List.replicate ps.length [], 1)
    | some part =>
      match ConnectCandidates g tol (p1 :: ps) (c1 :: cs) with
      | (ok, parts, cnt) => (ok, part :: parts, cnt)
  | _, _ => (true, [], 0)

/-- A path in the road graph from edge `frm`: a non-empty edge sequence
starting at `frm` in which each following edge leaves the end junction of its
predecessor (the adjacency `FindShortestPath` explores). -/
inductive IsPath (g : Graph) (frm : Edge) : List Edge → Edge → Prop where
  | base : IsPath g frm [frm] frm
  | snoc {p : List Edge} {z e : Edge} : IsPath g frm p z →
      e ∈ g.getOutgoingEdges (g.endJunction z) → IsPath g frm (p ++ [e]) e

/-- The cumulative Dijkstra score of a path: the sum of the lengths of every
edge after the first, matching the source's scores (the start edge enters the
queue with score 0 and each step adds `EdgeLength(e)` of the edge stepped
onto). -/
def pathScore (g : Graph) (p : List Edge) : Nat :=
  (p.tail.map g.edgeLength).sum

end OpenLR

namespace OpenLR

/-! ### Concrete graphs used by witnesses and counterexamples -/

/-- A small concrete road graph: edge 1 goes from junction 0 to junction 1,
edges 2 and 3 both go from junction 1 to junction 2, with lengths 5, 7, 3.
Edge 7 (length 130) and edge 8 (length 131) leave junction 3 and are used for
validation-boundary checks. -/
def gW : Graph where
  getOutgoingEdges := fun j => if j = 0 then [1] else if j = 1 then [2, 3] else []
  endJunction := fun e =>
    if e = 1 then 1 else if e = 2 then 2 else if e = 3 then 2 else
    if e = 7 then 4 else if e = 8 then 4 else 0
  edgeLength := fun e =>
    if e = 1 then 5 else if e = 2 then 7 else if e = 3 then 3 else
    if e = 7 then 130 else if e = 8 then 131 else 0
  isFake := fun _ => false
  edgeList := [1, 2, 3, 7, 8]

/-! ### C9: the road-class argument does not influence the search -/

/-- C9: For every source, target, maxLength and graph, and every two
functional-road-class values, `FindShortestPath` returns the same result for
both road classes: the `frc` argument has no influence on the search. -/
theorem c9_frc_has_no_influence (g : Graph) (frm toE : Edge) (maxPathLength : Nat)
    (frc1 frc2 : FunctionalRoadClass) :
    FindShortestPath g frm toE frc1 maxPathLength =
      FindShortestPath g frm toE frc2 maxPathLength := rfl

/-! ### C10: a single-point reference trivially succeeds -/

/-- C10: For a points list containing exactly one point and any candidate
sets, `ConnectCandidates` returns success with an empty result list and no
counter increment (the segment loop body is never entered). -/
theorem c10_single_point_succeeds (g : Graph) (tol : ℚ)
    (p : LocationReferencePoint) (lineCandidates : List (List (List Edge))) :
    ConnectCandidates g tol [p] lineCandidates = (true, [], 0) := by
  cases lineCandidates with
  | nil => rfl
  | cons c cs => cases cs <;> rfl

/-! ### C6: the validation tolerance boundary is inclusive -/

/-- C6: For every path, expected distance `d > 0` and tolerance fraction,
`ValidatePath` accepts exactly when the relative deviation
`|d - pathLength| / d` is at most the tolerance: deviation equal to the
tolerance is accepted, anything strictly greater is rejected. -/
theorem c6_validate_tolerance_boundary (g : Graph) (path : List Edge)
    (distanceToNextPoint : Nat) (pathLengthTolerance : ℚ)
    (hd : 0 < distanceToNextPoint) :
    ValidatePath g path distanceToNextPoint pathLengthTolerance = true ↔
      |(distanceToNextPoint : ℚ) - ((path.map g.edgeLength).sum : Nat)| /
          (distanceToNextPoint : ℚ) ≤ pathLengthTolerance := by
  unfold ValidatePath
  dsimp only
  split
  · next h => simp only [Bool.false_eq_true, false_iff, not_le]; exact h
  · next h => simp only [true_iff]; exact not_lt.mp h

/-- Witness for C6 at the spec's example: expected distance 100 with tolerance
0.3 accepts a path of length exactly 130 (deviation exactly 0.3). -/
theorem c6_validate_tolerance_boundary_witness :
    ValidatePath gW [7] 100 (3 / 10) = true :=
  (c6_validate_tolerance_boundary gW [7] 100 (3 / 10) (by decide)).mpr
    (by with_unfolding_all decide)

/-! ### Overlap machinery: C2, C4, C8 -/

/-- Intersecting with a multiset after erasing an element not in the left
operand changes nothing. -/
lemma inter_erase_of_not_mem {a : List Edge} {b : Multiset Edge} {x : Edge}
    (hx : x ∉ a) : (a : Multiset Edge) ∩ b.erase x = (a : Multiset Edge) ∩ b := by
  ext e
  by_cases hex : e = x
  · subst hex
    have h0 : Multiset.count e (a : Multiset Edge) = 0 :=
      Multiset.count_eq_zero_of_not_mem (by simpa using hx)
    simp [Multiset.count_inter, h0]
  · simp [Multiset.count_inter, Multiset.count_erase_of_ne hex]

/-- For a duplicate-free first argument, the multiset intersection cardinality
counted by `IntersectionLen` is the number of its elements that occur in the
second argument. -/
lemma intersectionLen_eq_filter {a : List Edge} (b : List Edge) (ha : a.Nodup) :
    IntersectionLen a b = (a.filter fun e => decide (e ∈ b)).length := by
  induction a with
  | nil => simp [IntersectionLen]
  | cons x a ih =>
    rcases List.nodup_cons.mp ha with ⟨hx, ha'⟩
    by_cases hxb : x ∈ b
    · have hcons : ((x :: a : List Edge) : Multiset Edge) = x ::ₘ (a : Multiset Edge) := rfl
      rw [IntersectionLen, hcons,
        Multiset.cons_inter_of_pos _ (by simpa using hxb),
        Multiset.card_cons, inter_erase_of_not_mem hx]
      rw [List.filter_cons_of_pos (by simpa using hxb), List.length_cons]
      rw [← ih ha', IntersectionLen]
    · have hcons : ((x :: a : List Edge) : Multiset Edge) = x ::ₘ (a : Multiset Edge) := rfl
      rw [IntersectionLen, hcons,
        Multiset.cons_inter_of_neg _ (by simpa using hxb),
        List.filter_cons_of_neg (by simpa using hxb)]
      rw [← ih ha', IntersectionLen]

/-- When the edges common to `A` and `B` are exactly the last `k` edges of `A`
(which equal the first `k` of `B`), the filter count of `A`-edges occurring in
`B` is `k`. -/
lemma filter_length_eq_overlap {A B : List Edge} {k : Nat}
    (hA : A.Nodup) (hkA : k ≤ A.length) (hkB : k ≤ B.length)
    (hsuff : A.drop (A.length - k) = B.take k)
    (hcommon : ∀ e ∈ A, e ∈ B → e ∈ B.take k) :
    (A.filter fun e => decide (e ∈ B)).length = k := by
  have hsplit := List.take_append_drop (A.length - k) A
  have hnd : ((A.take (A.length - k)) ++ (A.drop (A.length - k))).Nodup := by
    rw [hsplit]; exact hA
  rcases List.nodup_append.mp hnd with ⟨-, -, hdisj⟩
  have h1 : (A.take (A.length - k)).filter (fun e => decide (e ∈ B)) = [] := by
    rw [List.filter_eq_nil_iff]
    intro e he
    simp only [decide_eq_true_eq]
    intro heB
    have heA : e ∈ A := List.take_subset _ _ he
    have : e ∈ A.drop (A.length - k) := by rw [hsuff]; exact hcommon e heA heB
    exact hdisj he this
  have h2 : (A.drop (A.length - k)).filter (fun e => decide (e ∈ B)) =
      A.drop (A.length - k) := by
    rw [List.filter_eq_self]
    intro e he
    simp only [decide_eq_true_eq]
    exact List.take_subset k B (by rw [← hsuff]; exact he)
  conv_lhs => rw [← hsplit]
  rw [List.filter_append, h1, h2, List.nil_append, List.length_drop]
  omega

/-- Core overlap-splice lemma: under a clean suffix/prefix overlap of length
`k > 0`, `ConnectAdjacentCandidateLines` takes the splice branch and returns
`A ++ B.drop k`. -/
lemma overlap_clean_connect (g : Graph) {A B : List Edge}
    (frc : FunctionalRoadClass) (d : Nat) {k : Nat}
    (hA : A.Nodup) (hk : 0 < k) (hkA : k ≤ A.length) (hkB : k ≤ B.length)
    (hsuff : A.drop (A.length - k) = B.take k)
    (hcommon : ∀ e ∈ A, e ∈ B → e ∈ B.take k) :
    ConnectAdjacentCandidateLines g A B frc d = some (A ++ B.drop k) := by
  have hlen : IntersectionLen A B = k := by
    rw [intersectionLen_eq_filter B hA]
    exact filter_length_eq_overlap hA hkA hkB hsuff hcommon
  have hpref : PrefEqualsSuff A B (IntersectionLen A B) := by
    unfold PrefEqualsSuff; rw [hlen]; exact hsuff
  have hskip : PathOverlappingLen A B = (k : Int) := by
    unfold PathOverlappingLen; rw [if_pos hpref, hlen]
  unfold ConnectAdjacentCandidateLines
  rw [hskip]
  have hk0 : (k : Int) ≠ 0 := by
    simpa using Nat.pos_iff_ne_zero.mp hk
  rw [if_pos hk0, if_neg (by omega), Int.toNat_natCast]

/-- The overlap splice never duplicates an edge: edges common to `A` and `B`
sit in `B.take k`, which `B.drop k` avoids. -/
lemma overlap_splice_nodup {A B : List Edge} {k : Nat}
    (hA : A.Nodup) (hB : B.Nodup)
    (hcommon : ∀ e ∈ A, e ∈ B → e ∈ B.take k) :
    (A ++ B.drop k).Nodup := by
  rw [List.nodup_append]
  have hndB : ((B.take k) ++ (B.drop k)).Nodup := by
    rw [List.take_append_drop]; exact hB
  rcases List.nodup_append.mp hndB with ⟨-, hndD, hdisjB⟩
  refine ⟨hA, hndD, ?_⟩
  intro e heA heD
  have heB : e ∈ B := List.drop_subset _ _ heD
  exact hdisjB (hcommon e heA heB) heD

/-- C4: For duplicate-free sequences `A`, `B` whose common edges are exactly
the last `k` edges of `A`, equal in order to the first `k` edges of `B`
(`k > 0`), `ConnectAdjacentCandidateLines` succeeds with `A ++ B.drop k`,
which has `len A + len B - k` edges and no duplicates. -/
theorem c4_clean_overlap_splice (g : Graph) (A B : List Edge)
    (frc : FunctionalRoadClass) (d k : Nat)
    (hA : A.Nodup) (hB : B.Nodup) (hk : 0 < k)
    (hkA : k ≤ A.length) (hkB : k ≤ B.length)
    (hsuff : A.drop (A.length - k) = B.take k)
    (hcommon : ∀ e ∈ A, e ∈ B → e ∈ B.take k) :
    ConnectAdjacentCandidateLines g A B frc d = some (A ++ B.drop k) ∧
      (A ++ B.drop k).length = A.length + B.length - k ∧
      (A ++ B.drop k).Nodup := by
  refine ⟨overlap_clean_connect g frc d hA hk hkA hkB hsuff hcommon, ?_,
    overlap_splice_nodup hA hB hcommon⟩
  rw [List.length_append, List.length_drop]
  omega

/-- Witness for C4: `A = [1,2]`, `B = [2,3]` share the clean overlap `[2]`
(`k = 1`); the splice is `[1,2,3]`. -/
theorem c4_clean_overlap_splice_witness :
    ConnectAdjacentCandidateLines gW [1, 2] [2, 3] FunctionalRoadClass.FRC0 10 =
        some ([1, 2] ++ [2, 3].drop 1) ∧
      ([1, 2] ++ ([2, 3] : List Edge).drop 1).length = 2 + 2 - 1 ∧
      ([1, 2] ++ ([2, 3] : List Edge).drop 1).Nodup :=
  c4_clean_overlap_splice gW [1, 2] [2, 3] FunctionalRoadClass.FRC0 10 1
    (by decide) (by decide) (by decide) (by decide) (by decide) (by decide) (by decide)

/-- C2 fails on the code: for `A = [1,2]`, `B = [2,1]` the edge intersection
is non-empty (`{1,2}`) and is not a clean suffix-of-A/prefix-of-B, and a
shortest-path search between the boundary edges would succeed
(`FindShortestPath` from edge 2 to edge 2 returns `[2]`), yet
`ConnectAdjacentCandidateLines` fails immediately instead of falling through
to the search branch and succeeding. -/
theorem c2_counterexample :
    ([1, 2] : List Edge).Nodup ∧ ([2, 1] : List Edge).Nodup ∧
      IntersectionLen [1, 2] [2, 1] ≠ 0 ∧
      ¬ PrefEqualsSuff [1, 2] [2, 1] (IntersectionLen [1, 2] [2, 1]) ∧
      FindShortestPath gW 2 2 FunctionalRoadClass.FRC0 20 = some [2] ∧
      ConnectAdjacentCandidateLines gW [1, 2] [2, 1] FunctionalRoadClass.FRC0 20 =
        none := by
  with_unfolding_all decide

/-- C2 (amended): when the edge intersection of `A` and `B` does not form a
clean suffix-of-A/prefix-of-B overlap, `ConnectAdjacentCandidateLines` fails
immediately (returns no connection) without attempting the shortest-path
search, regardless of whether a search would succeed. -/
theorem c2_invalid_overlap_fails_immediately (g : Graph) (A B : List Edge)
    (frc : FunctionalRoadClass) (d : Nat)
    (_hne : IntersectionLen A B ≠ 0)
    (hbad : ¬ PrefEqualsSuff A B (IntersectionLen A B)) :
    ConnectAdjacentCandidateLines g A B frc d = none := by
  have hskip : PathOverlappingLen A B = -1 := by
    unfold PathOverlappingLen; rw [if_neg hbad]
  unfold ConnectAdjacentCandidateLines
  rw [hskip]
  rw [if_pos (by omega), if_pos rfl]

/-- Witness for the amended C2 at `A = [1,2]`, `B = [2,1]`. -/
theorem c2_invalid_overlap_fails_immediately_witness :
    ConnectAdjacentCandidateLines gW [1, 2] [2, 1] FunctionalRoadClass.FRC0 20 =
      none :=
  c2_invalid_overlap_fails_immediately gW [1, 2] [2, 1] FunctionalRoadClass.FRC0 20
    (by decide) (by decide)

/-- A graph with a two-edge cycle: edge 1 goes from junction 0 to junction 1,
edge 2 goes back from junction 1 to junction 0, and edge 3 goes from
junction 1 to junction 2; every edge has length 1. -/
def gC8 : Graph where
  getOutgoingEdges := fun j => if j = 0 then [1] else if j = 1 then [2, 3] else []
  endJunction := fun e => if e = 1 then 1 else if e = 2 then 0 else if e = 3 then 2 else 0
  edgeLength := fun _ => 1
  isFake := fun _ => false
  edgeList := [1, 2, 3]

/-- C8 fails on the code: with duplicate-free candidates `[1,2]` and `[3]` on
`gC8`, the search-splice branch finds the sub-path `[2,1,3]` between the
boundary edges and splices `[1] ++ [2,1,3] ++ []`, so the successful
`ConnectCandidates` call returns the segment `[1,2,1,3]`, in which edge 1
appears twice. -/
theorem c8_counterexample :
    ([1, 2] : List Edge).Nodup ∧ ([3] : List Edge).Nodup ∧
      ConnectCandidates gC8 1
          [⟨FunctionalRoadClass.FRC0, 4⟩, ⟨FunctionalRoadClass.FRC0, 0⟩]
          [[[1, 2]], [[3]]] =
        (true, [[1, 2, 1, 3]], 0) ∧
      ¬ ([1, 2, 1, 3] : List Edge).Nodup := by
  with_unfolding_all decide

/-- C8 (amended): the no-duplicate invariant holds for the overlap-splice
branch: when `A` and `B` are duplicate-free with a clean suffix/prefix
overlap of length `k > 0`, any sequence `ConnectAdjacentCandidateLines`
returns contains no edge twice.  (The search-splice branch can duplicate
edges, see the counterexample.) -/
theorem c8_no_duplicates_in_overlap_splice (g : Graph) (A B : List Edge)
    (frc : FunctionalRoadClass) (d k : Nat)
    (hA : A.Nodup) (hB : B.Nodup) (hk : 0 < k)
    (hkA : k ≤ A.length) (hkB : k ≤ B.length)
    (hsuff : A.drop (A.length - k) = B.take k)
    (hcommon : ∀ e ∈ A, e ∈ B → e ∈ B.take k) :
    ∀ r, ConnectAdjacentCandidateLines g A B frc d = some r → r.Nodup := by
  intro r hr
  rw [overlap_clean_connect g frc d hA hk hkA hkB hsuff hcommon] at hr
  cases hr
  exact overlap_splice_nodup hA hB hcommon

/-- Witness for the amended C8 at `A = [1,2]`, `B = [2,3]`. -/
theorem c8_no_duplicates_in_overlap_splice_witness :
    ([1, 2] ++ ([2, 3] : List Edge).drop 1).Nodup :=
  c8_no_duplicates_in_overlap_splice gW [1, 2] [2, 3] FunctionalRoadClass.FRC0 10 1
    (by decide) (by decide) (by decide) (by decide) (by decide) (by decide) (by decide)
    ([1, 2] ++ [2, 3].drop 1) (c4_clean_overlap_splice_witness).1

/-! ### C3: the fake-edge deferral policy -/

/-- The outcome of one candidate pair in the inner double loop: the connected
path if `ConnectAdjacentCandidateLines` succeeds and the result validates,
`none` otherwise. -/
def pairOutcome (g : Graph) (tol : ℚ) (frc : FunctionalRoadClass) (dist : Nat)
    (pr : List Edge × List Edge) : Option (List Edge) :=
  match ConnectAdjacentCandidateLines g pr.1 pr.2 frc dist with
  | none => none
  | some part => if ValidatePath g part dist tol then some part else none

lemma linkWalk_ne_nil {links : Nat → Option Nat} {frm : Nat} :
    ∀ {fuel e : Nat} {w : List Nat}, linkWalk links frm fuel e = some w → w ≠ [] := by
  intro fuel
  induction fuel with
  | zero => intro e w h; simp [linkWalk] at h
  | succ n ih =>
    intro e w h
    rw [linkWalk] at h
    by_cases he : e = frm
    · rw [if_pos he] at h
      cases h
      simp
    · rw [if_neg he] at h
      rcases hw : linkWalk links frm n ((links e).getD 0) with - | w'
      · rw [hw] at h; cases h
      · rw [hw] at h
        cases h
        simp

lemma dijkstraLoop_some_ne_nil {g : Graph} {frm toE budget : Nat} :
    ∀ {fuel : Nat} {q : List (Nat × Nat)} {scores links : Nat → Option Nat}
      {p : List Nat},
      dijkstraLoop g frm toE budget fuel q scores links = some (some p) → p ≠ [] := by
  intro fuel
  induction fuel with
  | zero => intro q scores links p h; simp [dijkstraLoop] at h
  | succ n ih =>
    intro q scores links p h
    rw [dijkstraLoop] at h
    rcases hq : popMin q with - | ⟨⟨s, u⟩, q'⟩
    · rw [hq] at h; cases h
    · rw [hq] at h
      dsimp only at h
      by_cases h1 : budget < s
      · rw [if_pos h1] at h; exact ih h
      · rw [if_neg h1] at h
        by_cases h2 : (scores u).getD 0 < s
        · rw [if_pos h2] at h; exact ih h
        · rw [if_neg h2] at h
          by_cases h3 : u = toE
          · rw [if_pos h3] at h
            rcases hw : linkWalk links frm (g.edgeList.length + 2) u with - | w
            · rw [hw] at h; cases h
            · rw [hw] at h
              cases h
              simpa using linkWalk_ne_nil hw
          · rw [if_neg h3] at h
            exact ih h

lemma findShortestPath_ne_nil {g : Graph} {a b : Edge} {frc : FunctionalRoadClass}
    {d : Nat} {p : List Edge} (h : FindShortestPath g a b frc d = some p) : p ≠ [] := by
  unfold FindShortestPath at h
  dsimp only at h
  rcases hl : dijkstraLoop g a b (d + 10) (dijkstraFuel g d) [(0, a)]
      (mapUpdate (fun _ => none) a 0) (fun _ => none) with - | r
  · rw [hl] at h; cases h
  · rw [hl] at h
    cases h
    exact dijkstraLoop_some_ne_nil hl

/-- A successful connection starting from a non-empty `from` sequence is
non-empty. -/
lemma connect_some_ne_nil {g : Graph} {A B : List Edge} {frc : FunctionalRoadClass}
    {d : Nat} {r : List Edge} (hA : A ≠ [])
    (h : ConnectAdjacentCandidateLines g A B frc d = some r) : r ≠ [] := by
  unfold ConnectAdjacentCandidateLines at h
  dsimp only at h
  split at h
  · split at h
    · cases h
    · cases h
      simp [hA]
  · rcases hf : FindShortestPath g A.getLastI B.headI frc d with - | sp
    · rw [hf] at h; cases h
    · rw [hf] at h
      cases h
      have := findShortestPath_ne_nil hf
      simp only [ne_eq, List.append_eq_nil]
      intro hcon
      exact this hcon.1.2

/-- Once a non-empty fake fallback is recorded, the candidate-pair scan
accepts the very next validated path and otherwise falls back to the recorded
path. -/
lemma segmentLoop_fake_recorded (g : Graph) (tol : ℚ) (frc : FunctionalRoadClass)
    (dist : Nat) :
    ∀ (ps : List (List Edge × List Edge)) (f : List Edge), f ≠ [] →
      segmentLoop g tol frc dist ps f =
        match ps.filterMap (pairOutcome g tol frc dist) with
        | [] => some f
        | p :: _ => some p := by
  intro ps
  induction ps with
  | nil =>
    intro f hf
    simp [segmentLoop, List.isEmpty_iff, hf]
  | cons pr ps ih =>
    intro f hf
    rcases pr with ⟨a, b⟩
    rw [segmentLoop]
    rcases hc : ConnectAdjacentCandidateLines g a b frc dist with - | part
    · have hpo : pairOutcome g tol frc dist (a, b) = none := by
        simp only [pairOutcome, hc]
      rw [List.filterMap_cons, hpo]
      exact ih f hf
    · by_cases hv : ValidatePath g part dist tol
      · have hpo : pairOutcome g tol frc dist (a, b) = some part := by
          simp only [pairOutcome, hc, if_pos hv]
        rw [List.filterMap_cons, hpo]
        simp only [if_pos hv]
        rw [if_neg]
        intro hcon
        rw [List.isEmpty_iff] at hcon
        exact hf hcon.1
      · have hpo : pairOutcome g tol frc dist (a, b) = none := by
          simp only [pairOutcome, hc, if_neg hv]
        rw [List.filterMap_cons, hpo]
        simp only [if_neg hv]
        exact ih f hf

/-- Characterization of the inner double loop with no fake path yet recorded:
the first validated success is accepted if it has no fake boundary edge;
otherwise the second validated success (fake or not) is accepted, and the
first one is the fallback when no second success exists. -/
lemma segmentLoop_characterization (g : Graph) (tol : ℚ) (frc : FunctionalRoadClass)
    (dist : Nat) :
    ∀ ps : List (List Edge × List Edge),
      (∀ pr ∈ ps, ∀ r, pairOutcome g tol frc dist pr = some r → r ≠ []) →
      segmentLoop g tol frc dist ps [] =
        match ps.filterMap (pairOutcome g tol frc dist) with
        | [] => none
        | [p] => some p
        | p1 :: p2 :: _ =>
          if g.isFake p1.headI ∨ g.isFake p1.getLastI then some p2 else some p1 := by
  intro ps
  induction ps with
  | nil => intro _; simp [segmentLoop]
  | cons pr ps ih =>
    intro hne
    rcases pr with ⟨a, b⟩
    have hne' : ∀ pr ∈ ps, ∀ r, pairOutcome g tol frc dist pr = some r → r ≠ [] :=
      fun pr hpr => hne pr (List.mem_cons_of_mem _ hpr)
    rw [segmentLoop]
    rcases hc : ConnectAdjacentCandidateLines g a b frc dist with - | part
    · have hpo : pairOutcome g tol frc dist (a, b) = none := by
        simp only [pairOutcome, hc]
      rw [List.filterMap_cons, hpo]
      exact ih hne'
    · by_cases hv : ValidatePath g part dist tol
      · have hpo : pairOutcome g tol frc dist (a, b) = some part := by
          simp only [pairOutcome, hc, if_pos hv]
        have hpartne : part ≠ [] := hne (a, b) (List.mem_cons_self _ _) part hpo
        rw [List.filterMap_cons, hpo]
        simp only [if_pos hv]
        by_cases hfake : g.isFake part.headI ∨ g.isFake part.getLastI
        · rw [if_pos (by exact ⟨by simp, hfake⟩)]
          rw [segmentLoop_fake_recorded g tol frc dist ps part hpartne]
          rcases hrest : ps.filterMap (pairOutcome g tol frc dist) with - | ⟨p2, rest⟩
          · simp [hfake]
          · simp [hfake]
        · rw [if_neg (by rintro ⟨-, hcon⟩; exact hfake hcon)]
          rcases hrest : ps.filterMap (pairOutcome g tol frc dist) with - | ⟨p2, rest⟩
          · simp
          · simp [hfake]
      · have hpo : pairOutcome g tol frc dist (a, b) = none := by
          simp only [pairOutcome, hc, if_neg hv]
        rw [List.filterMap_cons, hpo]
        simp only [if_neg hv]
        exact ih hne'

/-- A graph whose junctions have no outgoing edges, so every shortest-path
search fails; edges 1, 2, 3 all have length 5; edges 1 and 2 are fake, edge 3
is real. -/
def gC3 : Graph where
  getOutgoingEdges := fun _ => []
  endJunction := fun _ => 0
  edgeLength := fun _ => 5
  isFake := fun e => e = 1 ∨ e = 2
  edgeList := [1, 2, 3]

/-- C3 fails on the code: with candidates `[[1],[2],[3]]` for both points of a
segment on `gC3` (edges 1 and 2 fake, edge 3 real, all validating), the first
validated path `[1]` is deferred as the fake fallback, but the second
validated path `[2]` — itself fake-boundary — is accepted immediately, so the
segment's result is `[2]` even though the later pair `([3],[3])` yields the
validated non-fake path `[3]`. -/
theorem c3_counterexample :
    ConnectCandidates gC3 1
        [⟨FunctionalRoadClass.FRC0, 5⟩, ⟨FunctionalRoadClass.FRC0, 0⟩]
        [[[1], [2], [3]], [[1], [2], [3]]] =
      (true, [[2]], 0) ∧
      gC3.isFake 2 = true ∧ gC3.isFake 3 = false ∧
      pairOutcome gC3 1 FunctionalRoadClass.FRC0 5 ([3], [3]) = some [3] ∧
      ([3], [3]) ∈ allPairs [[1], [2], [3]] [[1], [2], [3]] ∧
      pairOutcome gC3 1 FunctionalRoadClass.FRC0 5 ([1], [1]) = some [1] ∧
      gC3.isFake 1 = true := by
  with_unfolding_all decide

/-- C3 (amended): exact acceptance policy of the candidate-pair scan.  Among
the validated successes in candidate-pair order: the first success is the
segment's result if it has no fake boundary edge; if it has one, it is
remembered and the second validated success — fake-boundary or not — is the
result; only when no second success exists does the remembered fake path
become the result; no success at all fails the segment. -/
theorem c3_fake_deferral_policy (g : Graph) (tol : ℚ)
    (point : LocationReferencePoint) (fromCandidates toCandidates : List (List Edge))
    (hne : ∀ f ∈ fromCandidates, f ≠ []) :
    segmentConnect g tol point fromCandidates toCandidates =
      match (allPairs fromCandidates toCandidates).filterMap
          (pairOutcome g tol point.m_functionalRoadClass point.m_distanceToNextPoint) with
      | [] => none
      | [p] => some p
      | p1 :: p2 :: _ =>
        if g.isFake p1.headI ∨ g.isFake p1.getLastI then some p2 else some p1 := by
  unfold segmentConnect
  apply segmentLoop_characterization
  intro pr hpr r hr
  have hf : pr.1 ∈ fromCandidates := by
    unfold allPairs at hpr
    rcases List.mem_flatMap.mp hpr with ⟨f, hfmem, hmap⟩
    rcases List.mem_map.mp hmap with ⟨t, -, heq⟩
    cases heq
    exact hfmem
  rcases hc : ConnectAdjacentCandidateLines g pr.1 pr.2
      point.m_functionalRoadClass point.m_distanceToNextPoint with - | part
  · simp only [pairOutcome, hc] at hr
    cases hr
  · by_cases hv : ValidatePath g part point.m_distanceToNextPoint tol
    · simp only [pairOutcome, hc, if_pos hv] at hr
      cases hr
      exact connect_some_ne_nil (hne pr.1 hf) hc
    · simp only [pairOutcome, hc, if_neg hv] at hr
      cases hr

/-- Witness for the amended C3 at the counterexample instance: the
characterization reproduces the accepted path `[2]`. -/
theorem c3_fake_deferral_policy_witness :
    segmentConnect gC3 1 ⟨FunctionalRoadClass.FRC0, 5⟩ [[1], [2], [3]] [[1], [2], [3]] =
      match (allPairs [[1], [2], [3]] [[1], [2], [3]]).filterMap
          (pairOutcome gC3 1 FunctionalRoadClass.FRC0 5) with
      | [] => none
      | [p] => some p
      | p1 :: p2 :: _ =>
        if gC3.isFake p1.headI ∨ gC3.isFake p1.getLastI then some p2 else some p1 :=
  c3_fake_deferral_policy gC3 1 ⟨FunctionalRoadClass.FRC0, 5⟩ [[1], [2], [3]]
    [[1], [2], [3]] (by decide)

/-! ### C7: total segment failure aborts the call -/

/-- Segment `k` of a `ConnectCandidates` call fails: no candidate pair for
the consecutive points `k` and `k+1` yields an accepted path (neither a
validated non-fake path nor a recorded fake fallback). -/
def SegFails (g : Graph) (tol : ℚ) (points : List LocationReferencePoint)
    (lineCandidates : List (List (List Edge))) (k : Nat) : Prop :=
  segmentConnect g tol (points.getD k ⟨FunctionalRoadClass.FRC0, 0⟩)
    (lineCandidates.getD k []) (lineCandidates.getD (k + 1) []) = none

instance (g : Graph) (tol : ℚ) (points : List LocationReferencePoint)
    (lineCandidates : List (List (List Edge))) (k : Nat) :
    Decidable (SegFails g tol points lineCandidates k) := by
  unfold SegFails; infer_instance

lemma segFails_cons (g : Graph) (tol : ℚ) (p0 : LocationReferencePoint)
    (pts : List LocationReferencePoint) (c0 : List (List Edge))
    (cands : List (List (List Edge))) (k : Nat) :
    SegFails g tol (p0 :: pts) (c0 :: cands) (k + 1) ↔ SegFails g tol pts cands k := by
  unfold SegFails
  rw [List.getD_cons_succ, List.getD_cons_succ, List.getD_cons_succ]

/-- C7: When some segment has no accepted path, `ConnectCandidates` returns
failure, increments the `noShortestPathFound` counter exactly once for the
whole call, clears the failing segment's output slot, and attempts no further
segments: from the first failing segment onwards every result slot holds the
empty vector the initial `resize` put there, and the caller receives `false`
(so no path is delivered for the reference). -/
theorem c7_segment_failure_aborts (g : Graph) (tol : ℚ)
    (points : List LocationReferencePoint)
    (lineCandidates : List (List (List Edge)))
    (hlen : points.length ≤ lineCandidates.length)
    (hfail : ∃ k, k + 1 < points.length ∧ SegFails g tol points lineCandidates k) :
    (ConnectCandidates g tol points lineCandidates).1 = false ∧
      (ConnectCandidates g tol points lineCandidates).2.2 = 1 ∧
      ∃ k0, k0 + 1 < points.length ∧ SegFails g tol points lineCandidates k0 ∧
        (∀ j, j < k0 → ¬ SegFails g tol points lineCandidates j) ∧
        (ConnectCandidates g tol points lineCandidates).2.1.drop k0 =
          List.replicate (points.length - 1 - k0) [] := by
  induction points generalizing lineCandidates with
  | nil =>
    rcases hfail with ⟨k, hk, -⟩
    simp only [List.length_nil] at hk
    omega
  | cons p0 pts ih =>
    cases pts with
    | nil =>
      rcases hfail with ⟨k, hk, -⟩
      simp only [List.length_cons, List.length_nil] at hk
      omega
    | cons p1 ps =>
      rcases lineCandidates with - | ⟨c0, cs0⟩
      · simp at hlen
      rcases cs0 with - | ⟨c1, cs⟩
      · simp at hlen
      rcases hseg : segmentConnect g tol p0 c0 c1 with - | part
      · refine ⟨?_, ?_, 0, ?_, ?_, ?_, ?_⟩
        · simp [ConnectCandidates, hseg]
        · simp [ConnectCandidates, hseg]
        · simp
        · unfold SegFails
          rw [List.getD_cons_zero, List.getD_cons_zero, List.getD_cons_succ,
            List.getD_cons_zero]
          exact hseg
        · intro j hj
          omega
        · simp [ConnectCandidates, hseg, List.replicate_succ, List.length_cons]
      · have hne0 : ¬ SegFails g tol (p0 :: p1 :: ps) (c0 :: c1 :: cs) 0 := by
          unfold SegFails
          rw [List.getD_cons_zero, List.getD_cons_zero, List.getD_cons_succ,
            List.getD_cons_zero, hseg]
          simp
        have hfail' : ∃ k, k + 1 < (p1 :: ps).length ∧
            SegFails g tol (p1 :: ps) (c1 :: cs) k := by
          rcases hfail with ⟨k, hk, hkf⟩
          cases k with
          | zero => exact absurd hkf hne0
          | succ k' =>
            refine ⟨k', ?_, (segFails_cons g tol p0 (p1 :: ps) c0 (c1 :: cs) k').mp hkf⟩
            simpa using hk
        have hlen' : (p1 :: ps).length ≤ (c1 :: cs).length := by
          simp at hlen ⊢
          omega
        rcases ih (c1 :: cs) hlen' hfail' with ⟨hflag, hcnt, k0', hk0lt, hk0f, hk0min, hdrop⟩
        rcases hrec : ConnectCandidates g tol (p1 :: ps) (c1 :: cs) with ⟨ok, parts, cnt⟩
        rw [hrec] at hflag hcnt hdrop
        refine ⟨?_, ?_, k0' + 1, ?_, ?_, ?_, ?_⟩
        · simp [ConnectCandidates, hseg, hrec]
          exact hflag
        · simp [ConnectCandidates, hseg, hrec]
          exact hcnt
        · simp at hk0lt ⊢
          omega
        · exact (segFails_cons g tol p0 (p1 :: ps) c0 (c1 :: cs) k0').mpr hk0f
        · intro j hj
          cases j with
          | zero => exact hne0
          | succ j' =>
            rw [segFails_cons]
            exact hk0min j' (by omega)
        · simp only [ConnectCandidates, hseg, hrec]
          rw [List.drop_succ_cons]
          rw [hdrop]
          congr 1
          simp only [List.length_cons]
          omega

/-- Witness for C7: on `gC3` the single segment between the two points has
candidates `[1]` and `[3]`, which do not overlap, and the search fails
(no junction has outgoing edges), so the call fails as described. -/
theorem c7_segment_failure_aborts_witness :
    (ConnectCandidates gC3 1
        [⟨FunctionalRoadClass.FRC0, 5⟩, ⟨FunctionalRoadClass.FRC0, 0⟩]
        [[[1]], [[3]]]).1 = false ∧
      (ConnectCandidates gC3 1
        [⟨FunctionalRoadClass.FRC0, 5⟩, ⟨FunctionalRoadClass.FRC0, 0⟩]
        [[[1]], [[3]]]).2.2 = 1 ∧
      ∃ k0, k0 + 1 < 2 ∧
        SegFails gC3 1 [⟨FunctionalRoadClass.FRC0, 5⟩, ⟨FunctionalRoadClass.FRC0, 0⟩]
          [[[1]], [[3]]] k0 ∧
        (∀ j, j < k0 → ¬ SegFails gC3 1
          [⟨FunctionalRoadClass.FRC0, 5⟩, ⟨FunctionalRoadClass.FRC0, 0⟩]
          [[[1]], [[3]]] j) ∧
        (ConnectCandidates gC3 1
          [⟨FunctionalRoadClass.FRC0, 5⟩, ⟨FunctionalRoadClass.FRC0, 0⟩]
          [[[1]], [[3]]]).2.1.drop k0 = List.replicate (2 - 1 - k0) [] :=
  c7_segment_failure_aborts gC3 1
    [⟨FunctionalRoadClass.FRC0, 5⟩, ⟨FunctionalRoadClass.FRC0, 0⟩] [[[1]], [[3]]]
    (by decide) ⟨0, by decide, by with_unfolding_all decide⟩

/-! ### Dijkstra machinery: basic lemmas -/

lemma pairLe_refl (p : Nat × Nat) : pairLe p p := by unfold pairLe; omega

lemma pairLe_trans {p q r : Nat × Nat} (h1 : pairLe p q) (h2 : pairLe q r) : pairLe p r := by
  unfold pairLe at *; omega

lemma pairLe_of_not_pairLe {p q : Nat × Nat} (h : ¬ pairLe p q) : pairLe q p := by
  unfold pairLe at *; omega

lemma pairLe_fst {p q : Nat × Nat} (h : pairLe p q) : p.1 ≤ q.1 := by
  unfold pairLe at h; omega

lemma popMin_eq_none_iff (q : List (Nat × Nat)) : popMin q = none ↔ q = [] := by
  cases q with
  | nil => simp [popMin]
  | cons p rest =>
    constructor
    · intro h
      exfalso
      rw [popMin] at h
      rcases hrest : popMin rest with - | ⟨m, rest'⟩ <;> rw [hrest] at h <;> dsimp only at h
      · cases h
      · by_cases hle : pairLe p m
        · rw [if_pos hle] at h; cases h
        · rw [if_neg hle] at h; cases h
    · intro h; cases h

lemma popMin_perm : ∀ {q : List (Nat × Nat)} {m : Nat × Nat} {q' : List (Nat × Nat)},
    popMin q = some (m, q') → q.Perm (m :: q') := by
  intro q
  induction q with
  | nil => intro m q' h; simp [popMin] at h
  | cons p rest ih =>
    intro m q' h
    rw [popMin] at h
    rcases hrest : popMin rest with - | ⟨m0, rest0⟩ <;> rw [hrest] at h <;> dsimp only at h
    · injection h with h
      injection h with h1 h2
      subst h1; subst h2
      rw [(popMin_eq_none_iff rest).mp hrest]
    · by_cases hle : pairLe p m0
      · rw [if_pos hle] at h
        injection h with h
        injection h with h1 h2
        subst h1; subst h2
        exact List.Perm.refl _
      · rw [if_neg hle] at h
        injection h with h
        injection h with h1 h2
        subst h1; subst h2
        exact (List.Perm.cons p (ih hrest)).trans (List.Perm.swap m0 p rest0)

lemma popMin_le : ∀ {q : List (Nat × Nat)} {m : Nat × Nat} {q' : List (Nat × Nat)},
    popMin q = some (m, q') → ∀ x ∈ q, pairLe m x := by
  intro q
  induction q with
  | nil => intro m q' h; simp [popMin] at h
  | cons p rest ih =>
    intro m q' h x hx
    rw [popMin] at h
    rcases hrest : popMin rest with - | ⟨m0, rest0⟩ <;> rw [hrest] at h <;> dsimp only at h
    · injection h with h
      injection h with h1 h2
      subst h1
      rw [(popMin_eq_none_iff rest).mp hrest] at hx
      have hxp := List.mem_singleton.mp hx
      subst hxp
      exact pairLe_refl _
    · by_cases hle : pairLe p m0
      · rw [if_pos hle] at h
        injection h with h
        injection h with h1 h2
        subst h1
        rcases List.mem_cons.mp hx with hxp | hx'
        · subst hxp; exact pairLe_refl _
        · exact pairLe_trans hle (ih hrest x hx')
      · rw [if_neg hle] at h
        injection h with h
        injection h with h1 h2
        subst h1
        rcases List.mem_cons.mp hx with hxp | hx'
        · subst hxp; exact pairLe_of_not_pairLe hle
        · exact ih hrest x hx'

lemma mapUpdate_self (m : Nat → Option Nat) (k v : Nat) : mapUpdate m k v k = some v := by
  simp [mapUpdate]

lemma mapUpdate_ne (m : Nat → Option Nat) (k v x : Nat) (h : x ≠ k) :
    mapUpdate m k v x = m x := by
  simp [mapUpdate, h]

lemma linkWalk_mono {links : Nat → Option Nat} {frm : Nat} :
    ∀ {fuel : Nat} {e : Nat} {w : List Nat}, linkWalk links frm fuel e = some w →
      ∀ {fuel' : Nat}, fuel ≤ fuel' → linkWalk links frm fuel' e = some w := by
  intro fuel
  induction fuel with
  | zero => intro e w h; simp [linkWalk] at h
  | succ n ih =>
    intro e w h fuel' hf
    rcases Nat.exists_eq_add_of_le hf with ⟨d, rfl⟩
    rw [Nat.succ_add]
    rw [linkWalk] at h ⊢
    by_cases he : e = frm
    · rw [if_pos he] at h ⊢; exact h
    · rw [if_neg he] at h ⊢
      rcases hw : linkWalk links frm n ((links e).getD 0) with - | w'
      · rw [hw] at h; cases h
      · rw [hw] at h
        rw [ih hw (by omega)]
        exact h

lemma linkWalk_congr {links links' : Nat → Option Nat} {frm : Nat} :
    ∀ {fuel : Nat} {e : Nat} {w : List Nat}, linkWalk links frm fuel e = some w →
      (∀ x ∈ w, x ≠ frm → links' x = links x) →
      linkWalk links' frm fuel e = some w := by
  intro fuel
  induction fuel with
  | zero => intro e w h; simp [linkWalk] at h
  | succ n ih =>
    intro e w h hagree
    rw [linkWalk] at h ⊢
    by_cases he : e = frm
    · rw [if_pos he] at h ⊢; exact h
    · rw [if_neg he] at h ⊢
      rcases hw : linkWalk links frm n ((links e).getD 0) with - | w'
      · rw [hw] at h; cases h
      · rw [hw] at h
        cases h
        have he_mem : e ∈ e :: w' := List.mem_cons_self _ _
        rw [hagree e he_mem he]
        rw [ih hw (fun x hx hxf => hagree x (List.mem_cons_of_mem _ hx) hxf)]

lemma IsPath.ne_nil {g : Graph} {frm : Edge} {p : List Edge} {z : Edge}
    (h : IsPath g frm p z) : p ≠ [] := by
  cases h with
  | base => simp
  | snoc h1 h2 => simp

lemma IsPath.head_eq {g : Graph} {frm : Edge} {p : List Edge} {z : Edge}
    (h : IsPath g frm p z) : p.head? = some frm := by
  induction h with
  | base => rfl
  | snoc h1 h2 ih =>
    next p' z' e =>
    rw [List.head?_append]
    rw [ih]
    rfl

lemma IsPath.getLast_eq {g : Graph} {frm : Edge} {p : List Edge} {z : Edge}
    (h : IsPath g frm p z) : p.getLast? = some z := by
  cases h with
  | base => rfl
  | snoc h1 h2 => exact List.getLast?_concat _

lemma pathScore_append_single (g : Graph) (p : List Edge) (e : Edge) (hp : p ≠ []) :
    pathScore g (p ++ [e]) = pathScore g p + g.edgeLength e := by
  cases p with
  | nil => exact absurd rfl hp
  | cons x xs => simp [pathScore, List.map_append]

lemma le_foldr_max {l : List Nat} {x : Nat} (h : x ∈ l) : x ≤ l.foldr Nat.max 0 := by
  induction l with
  | nil => cases h
  | cons y ys ih =>
    rcases List.mem_cons.mp h with hxy | hx
    · subst hxy
      exact Nat.le_max_left _ _
    · exact le_trans (ih hx) (Nat.le_max_right _ _)

lemma maxEdgeLen_le {g : Graph} {e : Edge} (h : e ∈ g.edgeList) :
    g.edgeLength e ≤ maxEdgeLen g :=
  le_foldr_max (List.mem_map_of_mem g.edgeLength h)

/-! ### Dijkstra loop invariant and termination measure -/

/-- Default value standing in for an absent score in the termination measure:
strictly larger than any score the loop can record. -/
def scoreBound (g : Graph) (budget : Nat) : Nat := budget + maxEdgeLen g + 1

/-- Current score of an edge, defaulting to `scoreBound`. -/
def scoreVal (g : Graph) (budget : Nat) (scores : Nat → Option Nat) (e : Nat) : Nat :=
  match scores e with
  | some v => v
  | none => scoreBound g budget

/-- Termination measure of the search loop: queue length plus the sum of the
current (or default) scores over all edges.  Every loop iteration strictly
decreases it. -/
def dMeasure (g : Graph) (budget : Nat) (q : List (Nat × Nat))
    (scores : Nat → Option Nat) : Nat :=
  q.length + (g.edgeList.map (scoreVal g budget scores)).sum

/-- Invariant of the `FindShortestPath` loop.  `D` is the (ghost) list of
expanded edges.  `scores` always holds achievable path scores; expanded edges
hold the exact shortest score and have relaxed all their outgoing edges; every
scored unexpanded edge within the budget has a live queue entry at its current
score; parent links always describe an achievable walk back to `frm`. -/
structure DijkstraInvCore (g : Graph) (frm toE budget : Nat) (q : List (Nat × Nat))
    (scores links : Nat → Option Nat) (D : List Nat) : Prop where
  q_mem : ∀ se ∈ q, se.2 ∈ g.edgeList
  q_ach : ∀ se ∈ q, ∃ p, IsPath g frm p se.2 ∧ pathScore g p = se.1
  q_ge : ∀ se ∈ q, ∃ v, scores se.2 = some v ∧ v ≤ se.1
  s_ach : ∀ e v, scores e = some v → ∃ p, IsPath g frm p e ∧ pathScore g p = v
  s_mem : ∀ e v, scores e = some v → e ∈ g.edgeList
  s_frm : scores frm = some 0
  d_sub : ∀ v ∈ D, v ∈ g.edgeList
  d_nodup : D.Nodup
  d_not_to : toE ∉ D
  d_final : ∀ v ∈ D, ∃ sv, scores v = some sv ∧
      ∀ p, IsPath g frm p v → sv ≤ pathScore g p
  frontier : ∀ e sv, scores e = some sv → e ∉ D → budget < sv ∨ (sv, e) ∈ q
  link_spec : ∀ e se', scores e = some se' → e ≠ frm →
      ∃ v, links e = some v ∧ v ∈ D ∧
        (∃ sv, scores v = some sv ∧ se' = sv + g.edgeLength e) ∧
        e ∈ g.getOutgoingEdges (g.endJunction v)
  walk : ∀ v ∈ D, ∃ w, linkWalk links frm (D.length + 1) v = some w ∧
      (∀ x ∈ w, x ∈ D) ∧ w.Nodup ∧ IsPath g frm w.reverse v ∧
      ∃ sv, scores v = some sv ∧ pathScore g w.reverse = sv

/-- Every vertex of `R` has relaxed all its outgoing edges. -/
def DRelax (g : Graph) (scores : Nat → Option Nat) (R : List Nat) : Prop :=
  ∀ v ∈ R, ∀ e ∈ g.getOutgoingEdges (g.endJunction v),
    ∃ sv se', scores v = some sv ∧ scores e = some se' ∧ se' ≤ sv + g.edgeLength e

/-- Full loop invariant: the core invariant plus full relaxation of every
expanded vertex. -/
def DijkstraInv (g : Graph) (frm toE budget : Nat) (q : List (Nat × Nat))
    (scores links : Nat → Option Nat) (D : List Nat) : Prop :=
  DijkstraInvCore g frm toE budget q scores links D ∧ DRelax g scores D

/-- Exchange identity for a pointwise-updated summand over a duplicate-free
index list. -/
lemma sum_map_update_eq : ∀ (l : List Nat), l.Nodup → ∀ (x : Nat), x ∈ l →
    ∀ (f f' : Nat → Nat), (∀ y ∈ l, y ≠ x → f' y = f y) →
    (l.map f').sum + f x = (l.map f).sum + f' x := by
  intro l
  induction l with
  | nil => intro _ x hx; cases hx
  | cons a l ih =>
    intro hnd x hx f f' hagree
    rcases List.nodup_cons.mp hnd with ⟨hal, hl⟩
    by_cases hax : x = a
    · subst hax
      have hmap : l.map f' = l.map f := by
        apply List.map_congr_left
        intro y hy
        exact hagree y (List.mem_cons_of_mem _ hy)
          (fun hyx => hal (hyx ▸ hy))
      simp only [List.map_cons, List.sum_cons, hmap]
      omega
    · have hxl : x ∈ l := by
        rcases List.mem_cons.mp hx with h | h
        · exact absurd h hax
        · exact h
      have hfa : f' a = f a := hagree a (List.mem_cons_self _ _) (fun h => hax h.symm)
      have := ih hl x hxl f f' (fun y hy => hagree y (List.mem_cons_of_mem _ hy))
      simp only [List.map_cons, List.sum_cons, hfa]
      omega

/-- The initial state satisfies the invariant. -/
lemma dijkstraInv_init (g : Graph) (frm toE budget : Nat)
    (hfrm : frm ∈ g.edgeList) :
    DijkstraInv g frm toE budget [(0, frm)]
      (mapUpdate (fun _ => none) frm 0) (fun _ => none) [] := by
  refine ⟨?_, ?_⟩
  swap
  · intro v hv; cases hv
  constructor
  · intro se hse
    rcases List.mem_singleton.mp hse with rfl
    exact hfrm
  · intro se hse
    rcases List.mem_singleton.mp hse with rfl
    exact ⟨[frm], IsPath.base, rfl⟩
  · intro se hse
    rcases List.mem_singleton.mp hse with rfl
    exact ⟨0, mapUpdate_self _ _ _, le_refl 0⟩
  · intro e v hv
    by_cases he : e = frm
    · subst he
      rw [mapUpdate_self] at hv
      cases hv
      exact ⟨_, IsPath.base, rfl⟩
    · rw [mapUpdate_ne _ _ _ _ he] at hv
      cases hv
  · intro e v hv
    by_cases he : e = frm
    · subst he; exact hfrm
    · rw [mapUpdate_ne _ _ _ _ he] at hv
      cases hv
  · exact mapUpdate_self _ _ _
  · intro v hv; cases hv
  · exact List.nodup_nil
  · simp
  · intro v hv; cases hv
  · intro e sv hsv he
    by_cases hef : e = frm
    · subst hef
      rw [mapUpdate_self] at hsv
      cases hsv
      right
      exact List.mem_singleton.mpr rfl
    · rw [mapUpdate_ne _ _ _ _ hef] at hsv
      cases hsv
  · intro e se' hse' hef
    rw [mapUpdate_ne _ _ _ _ hef] at hse'
    cases hse'
  · intro v hv; cases hv

/-- The initial measure is below the fuel `FindShortestPath` supplies. -/
lemma dMeasure_init_lt (g : Graph) (frm maxPathLength : Nat) :
    dMeasure g (maxPathLength + 10) [(0, frm)] (mapUpdate (fun _ => none) frm 0) <
      dijkstraFuel g maxPathLength := by
  unfold dMeasure dijkstraFuel
  have hbound : ∀ x ∈ g.edgeList.map
      (scoreVal g (maxPathLength + 10) (mapUpdate (fun _ => none) frm 0)),
      x ≤ scoreBound g (maxPathLength + 10) := by
    intro x hx
    rcases List.mem_map.mp hx with ⟨e, -, rfl⟩
    unfold scoreVal
    by_cases he : e = frm
    · subst he
      rw [mapUpdate_self]
      exact Nat.zero_le _
    · rw [mapUpdate_ne _ _ _ _ he]
  have hsum := List.sum_le_card_nsmul _ _ hbound
  rw [List.length_map, smul_eq_mul] at hsum
  have heq : scoreBound g (maxPathLength + 10) = maxPathLength + 10 + maxEdgeLen g + 1 := rfl
  simp only [List.length_cons, List.length_nil]
  rw [← heq]
  omega

/-! ### The frontier-crossing argument -/

/-- Walking any path from `frm`, either its score already reaches the popped
minimum `s`, or its endpoint carries a recorded score bounding the path's
score.  This is the crossing argument behind Dijkstra's optimality: a path
leaves the expanded region through a scored vertex with a live queue entry. -/
lemma path_cover {g : Graph} {frm toE budget : Nat} {q : List (Nat × Nat)}
    {scores links : Nat → Option Nat} {D : List Nat}
    (inv : DijkstraInv g frm toE budget q scores links D)
    {s u : Nat} (hmin : ∀ x ∈ q, pairLe (s, u) x) (hbudget : s ≤ budget) :
    ∀ {p : List Edge} {z : Edge}, IsPath g frm p z →
      s ≤ pathScore g p ∨ ∃ sz, scores z = some sz ∧ sz ≤ pathScore g p := by
  intro p z h
  induction h with
  | base => exact Or.inr ⟨0, inv.1.s_frm, le_refl 0⟩
  | @snoc p' z' e hp' hout ih =>
    have hscore : pathScore g (p' ++ [e]) = pathScore g p' + g.edgeLength e :=
      pathScore_append_single g p' e hp'.ne_nil
    rcases ih with hs | ⟨sz, hsz, hle⟩
    · left
      rw [hscore]
      omega
    · by_cases hzD : z' ∈ D
      · rcases inv.2 z' hzD e hout with ⟨sv, se', hsv, hse', hrel⟩
        have hveq : sv = sz := by
          rw [hsv] at hsz
          exact Option.some.inj hsz
        right
        exact ⟨se', hse', by rw [hscore]; omega⟩
      · rcases inv.1.frontier z' sz hsz hzD with hb | hq
        · left
          rw [hscore]
          omega
        · have hle2 : s ≤ sz := pairLe_fst (hmin (sz, z') hq)
          left
          rw [hscore]
          omega

/-- At a non-stale in-budget pop, the popped score is a lower bound on the
score of every path to the popped edge. -/
lemma pop_min_dist {g : Graph} {frm toE budget : Nat} {q : List (Nat × Nat)}
    {scores links : Nat → Option Nat} {D : List Nat}
    (inv : DijkstraInv g frm toE budget q scores links D)
    {s u : Nat} (hmin : ∀ x ∈ q, pairLe (s, u) x) (hbudget : s ≤ budget)
    (hs : scores u = some s) :
    ∀ p, IsPath g frm p u → s ≤ pathScore g p := by
  intro p hp
  rcases path_cover inv hmin hbudget hp with h | ⟨sz, hsz, hle⟩
  · exact h
  · rw [hs] at hsz
    have := Option.some.inj hsz
    omega

/-- When the queue is empty every path to the target exceeds the budget. -/
lemma empty_queue_no_path {g : Graph} {frm toE budget : Nat}
    {scores links : Nat → Option Nat} {D : List Nat}
    (inv : DijkstraInv g frm toE budget [] scores links D) :
    ∀ p, IsPath g frm p toE → budget < pathScore g p := by
  have cover : ∀ {p : List Edge} {z : Edge}, IsPath g frm p z →
      budget < pathScore g p ∨ ∃ sz, scores z = some sz ∧ sz ≤ pathScore g p := by
    intro p z h
    induction h with
    | base => exact Or.inr ⟨0, inv.1.s_frm, le_refl 0⟩
    | @snoc p' z' e hp' hout ih =>
      have hscore : pathScore g (p' ++ [e]) = pathScore g p' + g.edgeLength e :=
        pathScore_append_single g p' e hp'.ne_nil
      rcases ih with hs | ⟨sz, hsz, hle⟩
      · left
        rw [hscore]
        omega
      · by_cases hzD : z' ∈ D
        · rcases inv.2 z' hzD e hout with ⟨sv, se', hsv, hse', hrel⟩
          have hveq : sv = sz := by
            rw [hsv] at hsz
            exact Option.some.inj hsz
          right
          exact ⟨se', hse', by rw [hscore]; omega⟩
        · rcases inv.1.frontier z' sz hsz hzD with hb | hq
          · left
            rw [hscore]
            omega
          · cases hq
  intro p hp
  rcases cover hp with h | ⟨sz, hsz, hle⟩
  · exact h
  · rcases inv.1.frontier toE sz hsz inv.1.d_not_to with hb | hq
    · omega
    · cases hq

/-! ### Preservation of the invariant under one relaxation update -/

/-- One relaxation update (on an edge that is new or strictly improved)
preserves the core invariant, and preserves `DRelax` on any subset of the
done list. -/
lemma relax_step_inv {g : Graph} {frm toE budget : Nat} {q : List (Nat × Nat)}
    {scores links : Nat → Option Nat} {D' : List Nat} {u s e : Nat}
    (hwf1 : ∀ j, ∀ x ∈ g.getOutgoingEdges j, x ∈ g.edgeList)
    (core : DijkstraInvCore g frm toE budget q scores links D')
    (hu_D' : u ∈ D') (hscores_u : scores u = some s)
    (he_out : e ∈ g.getOutgoingEdges (g.endJunction u))
    (hupd : scores e = none ∨ ∃ old, scores e = some old ∧ s + g.edgeLength e < old) :
    DijkstraInvCore g frm toE budget ((s + g.edgeLength e, e) :: q)
        (mapUpdate scores e (s + g.edgeLength e)) (mapUpdate links e u) D' ∧
      ∀ R, DRelax g scores R → (∀ v ∈ R, v ∈ D') →
        DRelax g (mapUpdate scores e (s + g.edgeLength e)) R := by
  obtain ⟨pu, hpu, hpus⟩ := core.s_ach u s hscores_u
  have hpath_e : IsPath g frm (pu ++ [e]) e := hpu.snoc he_out
  have hscore_e : pathScore g (pu ++ [e]) = s + g.edgeLength e := by
    rw [pathScore_append_single g pu e hpu.ne_nil, hpus]
  have he_not_D' : e ∉ D' := by
    intro heD
    rcases core.d_final e heD with ⟨se0, hse0, hmin0⟩
    have h1 : se0 ≤ s + g.edgeLength e := by
      have h2 := hmin0 _ hpath_e
      rw [hscore_e] at h2
      exact h2
    rcases hupd with hnone | ⟨old, hold, hlt⟩
    · rw [hse0] at hnone; cases hnone
    · rw [hse0] at hold
      have := Option.some.inj hold
      omega
  have he_ne_u : e ≠ u := fun h => he_not_D' (h ▸ hu_D')
  have he_ne_frm : e ≠ frm := by
    intro h
    subst h
    rcases hupd with hnone | ⟨old, hold, hlt⟩
    · rw [core.s_frm] at hnone; cases hnone
    · rw [core.s_frm] at hold
      have := Option.some.inj hold
      omega
  have he_edge : e ∈ g.edgeList := hwf1 _ _ he_out
  constructor
  · constructor
    · intro se hse
      rcases List.mem_cons.mp hse with h | h
      · subst h; exact he_edge
      · exact core.q_mem se h
    · intro se hse
      rcases List.mem_cons.mp hse with h | h
      · subst h; exact ⟨pu ++ [e], hpath_e, hscore_e⟩
      · exact core.q_ach se h
    · intro se hse
      rcases List.mem_cons.mp hse with h | h
      · subst h
        exact ⟨s + g.edgeLength e, mapUpdate_self _ _ _, le_refl _⟩
      · by_cases hx : se.2 = e
        · rcases core.q_ge se h with ⟨v, hv, hvle⟩
          rw [hx] at hv
          rcases hupd with hnone | ⟨old, hold, hlt⟩
          · rw [hnone] at hv; cases hv
          · have hveq : v = old := by
              rw [hold] at hv
              exact (Option.some.inj hv).symm
            refine ⟨s + g.edgeLength e, ?_, by omega⟩
            rw [hx]
            exact mapUpdate_self _ _ _
        · rcases core.q_ge se h with ⟨v, hv, hvle⟩
          refine ⟨v, ?_, hvle⟩
          rw [mapUpdate_ne _ _ _ _ hx]
          exact hv
    · intro x v hv
      by_cases hx : x = e
      · subst hx
        rw [mapUpdate_self] at hv
        cases hv
        exact ⟨_, hpath_e, hscore_e⟩
      · rw [mapUpdate_ne _ _ _ _ hx] at hv
        exact core.s_ach x v hv
    · intro x v hv
      by_cases hx : x = e
      · subst hx; exact he_edge
      · rw [mapUpdate_ne _ _ _ _ hx] at hv
        exact core.s_mem x v hv
    · rw [mapUpdate_ne _ _ _ _ (Ne.symm he_ne_frm)]
      exact core.s_frm
    · exact core.d_sub
    · exact core.d_nodup
    · exact core.d_not_to
    · intro v hv
      rcases core.d_final v hv with ⟨sv, hsv, hmin⟩
      have hvne : v ≠ e := fun h => he_not_D' (h ▸ hv)
      refine ⟨sv, ?_, hmin⟩
      rw [mapUpdate_ne _ _ _ _ hvne]
      exact hsv
    · intro x sx hsx hxD
      by_cases hx : x = e
      · subst hx
        rw [mapUpdate_self] at hsx
        cases hsx
        right
        exact List.mem_cons_self _ _
      · rw [mapUpdate_ne _ _ _ _ hx] at hsx
        rcases core.frontier x sx hsx hxD with h | h
        · exact Or.inl h
        · exact Or.inr (List.mem_cons_of_mem _ h)
    · intro x sx hsx hxf
      by_cases hx : x = e
      · subst hx
        rw [mapUpdate_self] at hsx
        cases hsx
        refine ⟨u, mapUpdate_self _ _ _, hu_D', ⟨s, ?_, rfl⟩, he_out⟩
        rw [mapUpdate_ne _ _ _ _ (Ne.symm he_ne_u)]
        exact hscores_u
      · rw [mapUpdate_ne _ _ _ _ hx] at hsx
        rcases core.link_spec x sx hsx hxf with ⟨v, hlv, hvD, ⟨sv, hsv, hrel⟩, hout⟩
        have hvne : v ≠ e := fun h => he_not_D' (h ▸ hvD)
        refine ⟨v, ?_, hvD, ⟨sv, ?_, hrel⟩, hout⟩
        · rw [mapUpdate_ne _ _ _ _ hx]
          exact hlv
        · rw [mapUpdate_ne _ _ _ _ hvne]
          exact hsv
    · intro v hv
      rcases core.walk v hv with ⟨w, hw, hwD, hwnd, hwpath, sv, hsv, hwscore⟩
      have hvne : v ≠ e := fun h => he_not_D' (h ▸ hv)
      refine ⟨w, ?_, hwD, hwnd, hwpath, sv, ?_, hwscore⟩
      · exact linkWalk_congr hw
          (fun x hx _ => mapUpdate_ne _ _ _ _ (fun hxe => he_not_D' (hxe ▸ hwD x hx)))
      · rw [mapUpdate_ne _ _ _ _ hvne]
        exact hsv
  · intro R hR hRD v hvR e2 he2
    rcases hR v hvR e2 he2 with ⟨sv, se2, hsv, hse2, hrel⟩
    have hvne : v ≠ e := fun h => he_not_D' (h ▸ hRD v hvR)
    by_cases hx : e2 = e
    · subst hx
      rcases hupd with hnone | ⟨old, hold, hlt⟩
      · rw [hnone] at hse2; cases hse2
      · have hseq : se2 = old := by
          rw [hold] at hse2
          exact (Option.some.inj hse2).symm
        refine ⟨sv, s + g.edgeLength e2, ?_, mapUpdate_self _ _ _, by omega⟩
        rw [mapUpdate_ne _ _ _ _ hvne]
        exact hsv
    · refine ⟨sv, se2, ?_, ?_, hrel⟩
      · rw [mapUpdate_ne _ _ _ _ hvne]
        exact hsv
      · rw [mapUpdate_ne _ _ _ _ hx]
        exact hse2

/-! ### The relaxation fold -/

/-- Effect of the full relaxation loop over the outgoing edges of `u`: the
core invariant is preserved, `DRelax` on done vertices is preserved, `u`'s
score is untouched, every processed edge ends up relaxed, scores only
decrease, and the measure does not increase. -/
lemma relax_fold {g : Graph} {frm toE budget : Nat}
    (hwf1 : ∀ j, ∀ x ∈ g.getOutgoingEdges j, x ∈ g.edgeList)
    (hwf2 : g.edgeList.Nodup)
    {D' : List Nat} {u s : Nat} (hu_D' : u ∈ D') (hs_budget : s ≤ budget)
    {R : List Nat} (hRD' : ∀ v ∈ R, v ∈ D') :
    ∀ (es : List Edge) (scores links : Nat → Option Nat) (q : List (Nat × Nat)),
      (∀ e ∈ es, e ∈ g.getOutgoingEdges (g.endJunction u)) →
      DijkstraInvCore g frm toE budget q scores links D' →
      scores u = some s →
      DijkstraInvCore g frm toE budget (relaxEdges g u s es scores links q).2.2
          (relaxEdges g u s es scores links q).1
          (relaxEdges g u s es scores links q).2.1 D' ∧
        (DRelax g scores R → DRelax g (relaxEdges g u s es scores links q).1 R) ∧
        (relaxEdges g u s es scores links q).1 u = some s ∧
        (∀ e ∈ es, ∃ w, (relaxEdges g u s es scores links q).1 e = some w ∧
          w ≤ s + g.edgeLength e) ∧
        (∀ x v, scores x = some v →
          ∃ w, (relaxEdges g u s es scores links q).1 x = some w ∧ w ≤ v) ∧
        dMeasure g budget (relaxEdges g u s es scores links q).2.2
            (relaxEdges g u s es scores links q).1 ≤
          dMeasure g budget q scores := by
  intro es
  induction es with
  | nil =>
    intro scores links q hout core hsu
    refine ⟨core, fun h => h, hsu, ?_, ?_, le_refl _⟩
    · intro e he; cases he
    · intro x v hv; exact ⟨v, hv, le_refl _⟩
  | cons e es ih =>
    intro scores links q hout core hsu
    have he_out : e ∈ g.getOutgoingEdges (g.endJunction u) :=
      hout e (List.mem_cons_self _ _)
    have he_edge : e ∈ g.edgeList := hwf1 _ _ he_out
    have hes_out : ∀ x ∈ es, x ∈ g.getOutgoingEdges (g.endJunction u) :=
      fun x hx => hout x (List.mem_cons_of_mem _ hx)
    rcases hse : scores e with - | old
    · -- fresh edge: update
      have hstep : relaxEdges g u s (e :: es) scores links q =
          relaxEdges g u s es (mapUpdate scores e (s + g.edgeLength e))
            (mapUpdate links e u) ((s + g.edgeLength e, e) :: q) := by
        simp only [relaxEdges, hse]
      have hu_ne_e : u ≠ e := by
        intro h
        rw [← h, hsu] at hse
        cases hse
      obtain ⟨core1, hRpres⟩ := relax_step_inv hwf1 core hu_D' hsu he_out (Or.inl hse)
      have hsu1 : mapUpdate scores e (s + g.edgeLength e) u = some s := by
        rw [mapUpdate_ne _ _ _ _ hu_ne_e]
        exact hsu
      have hmeas : dMeasure g budget ((s + g.edgeLength e, e) :: q)
          (mapUpdate scores e (s + g.edgeLength e)) ≤ dMeasure g budget q scores := by
        have hagree : ∀ y ∈ g.edgeList, y ≠ e →
            scoreVal g budget (mapUpdate scores e (s + g.edgeLength e)) y =
              scoreVal g budget scores y := by
          intro y hy hyne
          unfold scoreVal
          rw [mapUpdate_ne _ _ _ _ hyne]
        have hsum := sum_map_update_eq g.edgeList hwf2 e he_edge
          (scoreVal g budget scores)
          (scoreVal g budget (mapUpdate scores e (s + g.edgeLength e))) hagree
        have hnew : scoreVal g budget (mapUpdate scores e (s + g.edgeLength e)) e =
            s + g.edgeLength e := by
          unfold scoreVal
          rw [mapUpdate_self]
        have hold2 : scoreVal g budget scores e = scoreBound g budget := by
          unfold scoreVal
          rw [hse]
        have hlt2 : s + g.edgeLength e < scoreBound g budget := by
          have := maxEdgeLen_le he_edge
          unfold scoreBound
          omega
        unfold dMeasure
        rw [hnew, hold2] at hsum
        simp only [List.length_cons]
        omega
      obtain ⟨c1, c2, c3, c4, c5, c6⟩ := ih _ _ _ hes_out core1 hsu1
      rw [hstep]
      refine ⟨c1, ?_, c3, ?_, ?_, le_trans c6 hmeas⟩
      · intro hR
        exact c2 (hRpres R hR hRD')
      · intro x hx
        rcases List.mem_cons.mp hx with hxe | hxes
        · subst hxe
          rcases c5 x (s + g.edgeLength x) (mapUpdate_self _ _ _) with ⟨w, hw, hwle⟩
          exact ⟨w, hw, hwle⟩
        · exact c4 x hxes
      · intro x v hv
        have hx_ne : x ≠ e := by
          intro h
          rw [h, hse] at hv
          cases hv
        apply c5
        rw [mapUpdate_ne _ _ _ _ hx_ne]
        exact hv
    · by_cases hlt : s + g.edgeLength e < old
      · -- strict improvement: update
        have hstep : relaxEdges g u s (e :: es) scores links q =
            relaxEdges g u s es (mapUpdate scores e (s + g.edgeLength e))
              (mapUpdate links e u) ((s + g.edgeLength e, e) :: q) := by
          simp only [relaxEdges, hse, if_pos hlt]
        have hu_ne_e : u ≠ e := by
          intro h
          rw [← h, hsu] at hse
          have : s = old := Option.some.inj hse
          omega
        obtain ⟨core1, hRpres⟩ := relax_step_inv hwf1 core hu_D' hsu he_out
          (Or.inr ⟨old, hse, hlt⟩)
        have hsu1 : mapUpdate scores e (s + g.edgeLength e) u = some s := by
          rw [mapUpdate_ne _ _ _ _ hu_ne_e]
          exact hsu
        have hmeas : dMeasure g budget ((s + g.edgeLength e, e) :: q)
            (mapUpdate scores e (s + g.edgeLength e)) ≤ dMeasure g budget q scores := by
          have hagree : ∀ y ∈ g.edgeList, y ≠ e →
              scoreVal g budget (mapUpdate scores e (s + g.edgeLength e)) y =
                scoreVal g budget scores y := by
            intro y hy hyne
            unfold scoreVal
            rw [mapUpdate_ne _ _ _ _ hyne]
          have hsum := sum_map_update_eq g.edgeList hwf2 e he_edge
            (scoreVal g budget scores)
            (scoreVal g budget (mapUpdate scores e (s + g.edgeLength e))) hagree
          have hnew : scoreVal g budget (mapUpdate scores e (s + g.edgeLength e)) e =
              s + g.edgeLength e := by
            unfold scoreVal
            rw [mapUpdate_self]
          have hold2 : scoreVal g budget scores e = old := by
            unfold scoreVal
            rw [hse]
          unfold dMeasure
          rw [hnew, hold2] at hsum
          simp only [List.length_cons]
          omega
        obtain ⟨c1, c2, c3, c4, c5, c6⟩ := ih _ _ _ hes_out core1 hsu1
        rw [hstep]
        refine ⟨c1, ?_, c3, ?_, ?_, le_trans c6 hmeas⟩
        · intro hR
          exact c2 (hRpres R hR hRD')
        · intro x hx
          rcases List.mem_cons.mp hx with hxe | hxes
          · subst hxe
            rcases c5 x (s + g.edgeLength x) (mapUpdate_self _ _ _) with ⟨w, hw, hwle⟩
            exact ⟨w, hw, hwle⟩
          · exact c4 x hxes
        · intro x v hv
          by_cases hx_ne : x = e
          · subst hx_ne
            have hvold : v = old := by
              rw [hse] at hv
              exact (Option.some.inj hv).symm
            rcases c5 x (s + g.edgeLength x) (mapUpdate_self _ _ _) with ⟨w, hw, hwle⟩
            exact ⟨w, hw, by omega⟩
          · apply c5
            rw [mapUpdate_ne _ _ _ _ hx_ne]
            exact hv
      · -- no improvement: state unchanged
        have hstep : relaxEdges g u s (e :: es) scores links q =
            relaxEdges g u s es scores links q := by
          simp only [relaxEdges, hse, if_neg hlt]
        obtain ⟨c1, c2, c3, c4, c5, c6⟩ := ih _ _ _ hes_out core hsu
        rw [hstep]
        refine ⟨c1, c2, c3, ?_, c5, c6⟩
        intro x hx
        rcases List.mem_cons.mp hx with hxe | hxes
        · subst hxe
          rcases c5 x old hse with ⟨w, hw, hwle⟩
          exact ⟨w, hw, by omega⟩
        · exact c4 x hxes

/-! ### Pop-time lemmas -/

lemma linkWalk_frm (links : Nat → Option Nat) (frm fuel : Nat) :
    linkWalk links frm (fuel + 1) frm = some [frm] := by
  rw [linkWalk, if_pos rfl]

lemma linkWalk_step {links : Nat → Option Nat} {frm fuel e v : Nat} {w : List Nat}
    (he : e ≠ frm) (hlv : links e = some v)
    (hw : linkWalk links frm fuel v = some w) :
    linkWalk links frm (fuel + 1) e = some (e :: w) := by
  rw [linkWalk, if_neg he, hlv]
  simp only [Option.getD_some]
  rw [hw]

/-- Removing the popped entry preserves the invariant, provided the popped
entry was not the live frontier entry of an unexpanded edge (or its score
exceeds the budget). -/
lemma pop_restrict_inv {g : Graph} {frm toE budget : Nat} {q q' : List (Nat × Nat)}
    {scores links : Nat → Option Nat} {D : List Nat} {s u : Nat}
    (inv : DijkstraInv g frm toE budget q scores links D)
    (hperm : q.Perm ((s, u) :: q'))
    (hfix : u ∉ D → scores u = some s → budget < s ∨ (s, u) ∈ q') :
    DijkstraInv g frm toE budget q' scores links D := by
  have hsub : ∀ x ∈ q', x ∈ q :=
    fun x hx => hperm.mem_iff.mpr (List.mem_cons_of_mem _ hx)
  refine ⟨⟨?_, ?_, ?_, inv.1.s_ach, inv.1.s_mem, inv.1.s_frm, inv.1.d_sub,
    inv.1.d_nodup, inv.1.d_not_to, inv.1.d_final, ?_, inv.1.link_spec,
    inv.1.walk⟩, inv.2⟩
  · exact fun se hse => inv.1.q_mem se (hsub se hse)
  · exact fun se hse => inv.1.q_ach se (hsub se hse)
  · exact fun se hse => inv.1.q_ge se (hsub se hse)
  · intro x sx hsx hxD
    rcases inv.1.frontier x sx hsx hxD with h | h
    · exact Or.inl h
    · have hmem : (sx, x) ∈ (s, u) :: q' := hperm.mem_iff.mp h
      rcases List.mem_cons.mp hmem with heq | hq'
      · have hx : x = u := congrArg Prod.snd heq
        have hsx2 : sx = s := congrArg Prod.fst heq
        subst hx
        subst hsx2
        exact hfix hxD hsx
      · exact Or.inr hq'

/-- When every outgoing edge already satisfies the relaxed bound, the
relaxation loop changes nothing. -/
lemma relax_noop {g : Graph} (u : Nat) {s : Nat} :
    ∀ (es : List Edge) (scores links : Nat → Option Nat) (q : List (Nat × Nat)),
      (∀ e ∈ es, ∃ se', scores e = some se' ∧ se' ≤ s + g.edgeLength e) →
      relaxEdges g u s es scores links q = (scores, links, q) := by
  intro es
  induction es with
  | nil => intro scores links q h; rfl
  | cons e es ih =>
    intro scores links q h
    rcases h e (List.mem_cons_self _ _) with ⟨se', hse', hle⟩
    have hnlt : ¬ s + g.edgeLength e < se' := by omega
    simp only [relaxEdges, hse', if_neg hnlt]
    exact ih scores links q (fun x hx => h x (List.mem_cons_of_mem _ hx))

/-- Expanding a fresh in-budget non-stale popped edge: the state after
removing the popped entry satisfies the core invariant for `u :: D`, with
`DRelax` still known only for `D`. -/
lemma extend_done_inv {g : Graph} {frm toE budget : Nat} {q q' : List (Nat × Nat)}
    {scores links : Nat → Option Nat} {D : List Nat} {s u : Nat}
    (inv : DijkstraInv g frm toE budget q scores links D)
    (hperm : q.Perm ((s, u) :: q'))
    (hmin : ∀ x ∈ q, pairLe (s, u) x)
    (hs : scores u = some s) (hbudget : s ≤ budget)
    (hu_not_D : u ∉ D) (hu_ne_to : u ≠ toE) :
    DijkstraInvCore g frm toE budget q' scores links (u :: D) ∧ DRelax g scores D := by
  have hsub : ∀ x ∈ q', x ∈ q :=
    fun x hx => hperm.mem_iff.mpr (List.mem_cons_of_mem _ hx)
  have hmem_su : (s, u) ∈ q := hperm.mem_iff.mpr (List.mem_cons_self _ _)
  have hu_edge : u ∈ g.edgeList := inv.1.q_mem (s, u) hmem_su
  refine ⟨⟨?_, ?_, ?_, inv.1.s_ach, inv.1.s_mem, inv.1.s_frm, ?_, ?_, ?_, ?_, ?_,
    ?_, ?_⟩, inv.2⟩
  · exact fun se hse => inv.1.q_mem se (hsub se hse)
  · exact fun se hse => inv.1.q_ach se (hsub se hse)
  · exact fun se hse => inv.1.q_ge se (hsub se hse)
  · intro v hv
    rcases List.mem_cons.mp hv with hvu | hvD
    · subst hvu; exact hu_edge
    · exact inv.1.d_sub v hvD
  · exact List.nodup_cons.mpr ⟨hu_not_D, inv.1.d_nodup⟩
  · intro hto
    rcases List.mem_cons.mp hto with h | h
    · exact hu_ne_to h.symm
    · exact inv.1.d_not_to h
  · intro v hv
    rcases List.mem_cons.mp hv with hvu | hvD
    · subst hvu
      exact ⟨s, hs, pop_min_dist inv hmin hbudget hs⟩
    · exact inv.1.d_final v hvD
  · intro x sx hsx hxD
    have hxD2 : x ∉ D := fun h => hxD (List.mem_cons_of_mem _ h)
    have hxu : x ≠ u := fun h => hxD (h ▸ List.mem_cons_self _ _)
    rcases inv.1.frontier x sx hsx hxD2 with h | h
    · exact Or.inl h
    · have hmem : (sx, x) ∈ (s, u) :: q' := hperm.mem_iff.mp h
      rcases List.mem_cons.mp hmem with heq | hq'
      · exact absurd (congrArg Prod.snd heq) hxu
      · exact Or.inr hq'
  · intro x sx hsx hxf
    rcases inv.1.link_spec x sx hsx hxf with ⟨v, hlv, hvD, hrel, hout⟩
    exact ⟨v, hlv, List.mem_cons_of_mem _ hvD, hrel, hout⟩
  · intro v hv
    rcases List.mem_cons.mp hv with hvu | hvD
    · subst hvu
      by_cases hv_frm : v = frm
      · subst hv_frm
        have hs0 : s = 0 := by
          rw [inv.1.s_frm] at hs
          exact (Option.some.inj hs).symm
        refine ⟨[v], ?_, ?_, List.nodup_singleton _, ?_, s, hs, ?_⟩
        · exact linkWalk_frm links v ((v :: D).length)
        · intro x hx
          rcases List.mem_singleton.mp hx with rfl
          exact List.mem_cons_self _ _
        · exact IsPath.base
        · rw [hs0]; rfl
      · rcases inv.1.link_spec v s hs hv_frm with ⟨x, hlx, hxD, ⟨sx, hsx, hrel⟩, hout⟩
        rcases inv.1.walk x hxD with ⟨w, hw, hwD, hwnd, hwpath, sx2, hsx2, hwsc⟩
        have hsxeq : sx2 = sx := by
          rw [hsx] at hsx2
          exact (Option.some.inj hsx2).symm
        have hvw : v ∉ w := fun h => hu_not_D (hwD v h)
        refine ⟨v :: w, ?_, ?_, List.nodup_cons.mpr ⟨hvw, hwnd⟩, ?_, s, hs, ?_⟩
        · have hstep := linkWalk_step hv_frm hlx hw
          exact hstep
        · intro y hy
          rcases List.mem_cons.mp hy with hyv | hyw
          · subst hyv; exact List.mem_cons_self _ _
          · exact List.mem_cons_of_mem _ (hwD y hyw)
        · rw [List.reverse_cons]
          exact hwpath.snoc hout
        · rw [List.reverse_cons,
            pathScore_append_single g w.reverse v hwpath.ne_nil, hwsc, hsxeq]
          omega
    · rcases inv.1.walk v hvD with ⟨w, hw, hwD, hwnd, hwpath, sv, hsv, hwsc⟩
      refine ⟨w, ?_, ?_, hwnd, hwpath, sv, hsv, hwsc⟩
      · exact linkWalk_mono hw (by simp [List.length_cons])
      · exact fun x hx => List.mem_cons_of_mem _ (hwD x hx)

/-! ### Correctness of the search loop -/

theorem dijkstraLoop_spec {g : Graph} {frm toE budget : Nat}
    (hwf1 : ∀ j, ∀ x ∈ g.getOutgoingEdges j, x ∈ g.edgeList)
    (hwf2 : g.edgeList.Nodup) :
    ∀ (fuel : Nat) (q : List (Nat × Nat)) (scores links : Nat → Option Nat)
      (D : List Nat),
      DijkstraInv g frm toE budget q scores links D →
      dMeasure g budget q scores < fuel →
      ∃ r, dijkstraLoop g frm toE budget fuel q scores links = some r ∧
        (r = none → ∀ p, IsPath g frm p toE → budget < pathScore g p) ∧
        (∀ p, r = some p → IsPath g frm p toE ∧ pathScore g p ≤ budget ∧ p.Nodup ∧
          ∀ p', IsPath g frm p' toE → pathScore g p ≤ pathScore g p') := by
  intro fuel
  induction fuel with
  | zero => intro q scores links D inv hm; omega
  | succ fuel ih =>
    intro q scores links D inv hm
    rcases hq : popMin q with - | ⟨⟨s, u⟩, q'⟩
    · have hqnil : q = [] := (popMin_eq_none_iff q).mp hq
      subst hqnil
      refine ⟨none, ?_, ?_, ?_⟩
      · rw [dijkstraLoop, hq]
      · intro _
        exact empty_queue_no_path inv
      · intro p hp; cases hp
    · have hperm := popMin_perm hq
      have hmin := popMin_le hq
      have hmem_su : (s, u) ∈ q := hperm.mem_iff.mpr (List.mem_cons_self _ _)
      have hlen : q.length = q'.length + 1 := by
        have := hperm.length_eq
        simpa using this
      have hm' : dMeasure g budget q' scores < fuel := by
        unfold dMeasure at hm ⊢
        omega
      by_cases h1 : budget < s
      · have heq : dijkstraLoop g frm toE budget (fuel + 1) q scores links =
            dijkstraLoop g frm toE budget fuel q' scores links := by
          rw [dijkstraLoop, hq]
          dsimp only
          rw [if_pos h1]
        have inv' := pop_restrict_inv inv hperm (fun _ _ => Or.inl h1)
        rcases ih q' scores links D inv' hm' with ⟨r, hr, hnone, hsome⟩
        exact ⟨r, by rw [heq]; exact hr, hnone, hsome⟩
      · by_cases h2 : (scores u).getD 0 < s
        · have heq : dijkstraLoop g frm toE budget (fuel + 1) q scores links =
              dijkstraLoop g frm toE budget fuel q' scores links := by
            rw [dijkstraLoop, hq]
            dsimp only
            rw [if_neg h1, if_pos h2]
          have hfix : u ∉ D → scores u = some s → budget < s ∨ (s, u) ∈ q' := by
            intro _ hsu
            rw [hsu] at h2
            simp only [Option.getD_some] at h2
            omega
          have inv' := pop_restrict_inv inv hperm hfix
          rcases ih q' scores links D inv' hm' with ⟨r, hr, hnone, hsome⟩
          exact ⟨r, by rw [heq]; exact hr, hnone, hsome⟩
        · have hbudget : s ≤ budget := by omega
          have hs : scores u = some s := by
            rcases inv.1.q_ge (s, u) hmem_su with ⟨v, hv, hvle⟩
            rw [hv] at h2
            simp only [Option.getD_some] at h2
            have hveq : v = s := by omega
            rw [← hveq]
            exact hv
          have hopt := pop_min_dist inv hmin hbudget hs
          by_cases h3 : u = toE
          · subst h3
            obtain ⟨ww, hww, hwwpath, hwwscore, hwwnd⟩ :
                ∃ ww, linkWalk links frm (g.edgeList.length + 2) u = some ww ∧
                  IsPath g frm ww.reverse u ∧ pathScore g ww.reverse = s ∧
                  ww.Nodup := by
              by_cases hto_frm : u = frm
              · have h0 : s = 0 := by
                  rw [hto_frm, inv.1.s_frm] at hs
                  exact (Option.some.inj hs).symm
                refine ⟨[u], ?_, ?_, ?_, List.nodup_singleton _⟩
                · rw [hto_frm]
                  exact linkWalk_frm links frm (g.edgeList.length + 1)
                · rw [hto_frm]
                  exact IsPath.base
                · simp [pathScore, h0]
              · rcases inv.1.link_spec u s hs hto_frm with
                  ⟨x, hlx, hxD, ⟨sx, hsx, hrelx⟩, houtx⟩
                rcases inv.1.walk x hxD with ⟨w, hw, hwD, hwnd, hwpath, sx2, hsx2, hwsc⟩
                have hsxeq : sx2 = sx := by
                  rw [hsx] at hsx2
                  exact (Option.some.inj hsx2).symm
                have htow : u ∉ w := fun h => inv.1.d_not_to (hwD _ h)
                have hDlen : D.length ≤ g.edgeList.length :=
                  (List.subperm_of_subset inv.1.d_nodup
                    (fun y hy => inv.1.d_sub y hy)).length_le
                have hstep := linkWalk_step hto_frm hlx hw
                have hww2 : linkWalk links frm (g.edgeList.length + 2) u =
                    some (u :: w) := linkWalk_mono hstep (by omega)
                refine ⟨u :: w, hww2, ?_, ?_, List.nodup_cons.mpr ⟨htow, hwnd⟩⟩
                · rw [List.reverse_cons]
                  exact hwpath.snoc houtx
                · rw [List.reverse_cons,
                    pathScore_append_single g w.reverse u hwpath.ne_nil, hwsc, hsxeq]
                  omega
            have heq : dijkstraLoop g frm u budget (fuel + 1) q scores links =
                some (some ww.reverse) := by
              rw [dijkstraLoop, hq]
              dsimp only
              rw [if_neg h1, if_neg h2, if_pos rfl, hww]
            refine ⟨some ww.reverse, heq, ?_, ?_⟩
            · intro h; cases h
            · intro p hp
              have hpe : ww.reverse = p := Option.some.inj hp
              subst hpe
              refine ⟨hwwpath, ?_, ?_, ?_⟩
              · rw [hwwscore]; exact hbudget
              · exact List.nodup_reverse.mpr hwwnd
              · intro p' hp'
                rw [hwwscore]
                exact hopt p' hp'
          · by_cases huD : u ∈ D
            · have hcond : ∀ e ∈ g.getOutgoingEdges (g.endJunction u),
                  ∃ se', scores e = some se' ∧ se' ≤ s + g.edgeLength e := by
                intro e he
                rcases inv.2 u huD e he with ⟨sv, se', hsv, hse', hrelv⟩
                have hsveq : sv = s := by
                  rw [hs] at hsv
                  exact (Option.some.inj hsv).symm
                exact ⟨se', hse', by omega⟩
              have hnoop := relax_noop u _ scores links q' hcond
              have heq : dijkstraLoop g frm toE budget (fuel + 1) q scores links =
                  dijkstraLoop g frm toE budget fuel q' scores links := by
                rw [dijkstraLoop, hq]
                dsimp only
                rw [if_neg h1, if_neg h2, if_neg h3, hnoop]
              have inv' := pop_restrict_inv inv hperm (fun hnotD _ => absurd huD hnotD)
              rcases ih q' scores links D inv' hm' with ⟨r, hr, hnone, hsome⟩
              exact ⟨r, by rw [heq]; exact hr, hnone, hsome⟩
            · obtain ⟨core', hrelaxD⟩ := extend_done_inv inv hperm hmin hs hbudget huD h3
              rcases hrel : relaxEdges g u s (g.getOutgoingEdges (g.endJunction u))
                  scores links q' with ⟨scores1, links1, q1⟩
              have hfold := relax_fold hwf1 hwf2 (List.mem_cons_self u D) hbudget
                (fun v hv => List.mem_cons_of_mem _ hv)
                (g.getOutgoingEdges (g.endJunction u)) scores links q'
                (fun e he => he) core' hs
              rw [hrel] at hfold
              dsimp only at hfold
              obtain ⟨c1, c2, c3, c4, c5, c6⟩ := hfold
              have hinv1 : DijkstraInv g frm toE budget q1 scores1 links1 (u :: D) := by
                refine ⟨c1, ?_⟩
                intro v hv e he
                rcases List.mem_cons.mp hv with hvu | hvD
                · subst hvu
                  rcases c4 e he with ⟨w, hw, hwle⟩
                  exact ⟨s, w, c3, hw, hwle⟩
                · exact c2 hrelaxD v hvD e he
              have hm1 : dMeasure g budget q1 scores1 < fuel := lt_of_le_of_lt c6 hm'
              have heq : dijkstraLoop g frm toE budget (fuel + 1) q scores links =
                  dijkstraLoop g frm toE budget fuel q1 scores1 links1 := by
                rw [dijkstraLoop, hq]
                dsimp only
                rw [if_neg h1, if_neg h2, if_neg h3, hrel]
              rcases ih q1 scores1 links1 (u :: D) hinv1 hm1 with ⟨r, hr, hnone, hsome⟩
              exact ⟨r, by rw [heq]; exact hr, hnone, hsome⟩

/-! ### C1: specification of FindShortestPath -/

/-- Full specification of `FindShortestPath` on a well-formed finite graph:
a returned path is a real path from `frm` to `toE`, within `maxLength + 10`,
duplicate-free and of minimal score; a `none` answer means every path
exceeds the budget. -/
theorem findShortestPath_spec (g : Graph) (frm toE : Edge)
    (frc : FunctionalRoadClass) (maxPathLength : Nat)
    (hwf1 : ∀ j, ∀ x ∈ g.getOutgoingEdges j, x ∈ g.edgeList)
    (hwf2 : g.edgeList.Nodup) (hfrm : frm ∈ g.edgeList) :
    (∀ p, FindShortestPath g frm toE frc maxPathLength = some p →
      IsPath g frm p toE ∧ pathScore g p ≤ maxPathLength + 10 ∧ p.Nodup ∧
      ∀ p', IsPath g frm p' toE → pathScore g p ≤ pathScore g p') ∧
    (FindShortestPath g frm toE frc maxPathLength = none →
      ∀ p, IsPath g frm p toE → maxPathLength + 10 < pathScore g p) := by
  obtain ⟨r, hr, hnone, hsome⟩ := dijkstraLoop_spec hwf1 hwf2
    (dijkstraFuel g maxPathLength) [(0, frm)]
    (mapUpdate (fun _ => none) frm 0) (fun _ => none) []
    (dijkstraInv_init g frm toE (maxPathLength + 10) hfrm)
    (dMeasure_init_lt g frm maxPathLength)
  have hfsp : FindShortestPath g frm toE frc maxPathLength = r := by
    unfold FindShortestPath
    dsimp only
    rw [hr]
  constructor
  · intro p hp
    rw [hfsp] at hp
    exact hsome p hp
  · intro hp
    rw [hfsp] at hp
    subst hp
    exact hnone rfl

/-- The total edge-length of a sequence: the sum of every edge's length,
including the first — the quantity `ValidatePath` sums, and the natural
reading of a path's "total length". -/
def fullPathLength (g : Graph) (p : List Edge) : Nat :=
  (p.map g.edgeLength).sum

/-- A two-edge chain: edge 1 goes from junction 0 to junction 1 with length
100, edge 2 goes from junction 1 to junction 2 with length 5. -/
def gC1 : Graph where
  getOutgoingEdges := fun j => if j = 1 then [2] else []
  endJunction := fun e => if e = 1 then 1 else if e = 2 then 2 else 0
  edgeLength := fun e => if e = 1 then 100 else if e = 2 then 5 else 0
  isFake := fun _ => false
  edgeList := [1, 2]

/-- C1 fails on the code when a path's "total length" is its full
edge-length sum: on `gC1` with `maxLength = 0` every path from edge 1 to
edge 2 has total length over the budget `0 + 10` (any such path contains the
source edge of length 100), yet `FindShortestPath` returns `[1, 2]` rather
than false, because the search scores the source edge 0 and only accrues
the lengths of later edges (here 5 ≤ 10). -/
theorem c1_counterexample :
    (∀ p, IsPath gC1 1 p 2 → 0 + 10 < fullPathLength gC1 p) ∧
      FindShortestPath gC1 1 2 FunctionalRoadClass.FRC0 0 = some [1, 2] ∧
      fullPathLength gC1 [1, 2] = 105 := by
  refine ⟨?_, by decide, by decide⟩
  intro p hp
  have hmem : (1 : Edge) ∈ p := List.mem_of_mem_head? (by rw [hp.head_eq]; rfl)
  have hle : gC1.edgeLength 1 ≤ (p.map gC1.edgeLength).sum :=
    List.single_le_sum (fun x _ => Nat.zero_le x) _ (List.mem_map_of_mem _ hmem)
  have h100 : gC1.edgeLength 1 = 100 := rfl
  unfold fullPathLength
  omega

/-- C1 (amended): For every well-formed finite graph (non-negative `Nat`
edge lengths) and every call, with a path's length measured as the code
measures it — the cumulative Dijkstra score, i.e. the sum of the lengths of
the edges stepped onto after the source edge, the source edge entering the
search with score 0 (this is exactly the quantity compared against
`maxPathLength + kLengthToleranceM`): if some path from source to target has
score at most `maxLength` plus the fixed slack of 10, the call returns a
path of minimal score over all source-to-target paths; if every path's
score exceeds that budget (or none exists) it returns `none`.  The original
claim, which measures a path by its total edge-length sum including the
source edge, fails on the code: see the counterexample. -/
theorem c1_find_shortest_path_optimal (g : Graph) (frm toE : Edge)
    (frc : FunctionalRoadClass) (maxPathLength : Nat)
    (hwf1 : ∀ j, ∀ x ∈ g.getOutgoingEdges j, x ∈ g.edgeList)
    (hwf2 : g.edgeList.Nodup) (hfrm : frm ∈ g.edgeList) :
    ((∃ p, IsPath g frm p toE ∧ pathScore g p ≤ maxPathLength + 10) →
      ∃ p, FindShortestPath g frm toE frc maxPathLength = some p ∧
        IsPath g frm p toE ∧
        ∀ p', IsPath g frm p' toE → pathScore g p ≤ pathScore g p') ∧
    ((¬ ∃ p, IsPath g frm p toE ∧ pathScore g p ≤ maxPathLength + 10) →
      FindShortestPath g frm toE frc maxPathLength = none) := by
  obtain ⟨hsome, hnone⟩ :=
    findShortestPath_spec g frm toE frc maxPathLength hwf1 hwf2 hfrm
  constructor
  · rintro ⟨p0, hp0, hp0le⟩
    rcases hfsp : FindShortestPath g frm toE frc maxPathLength with - | p
    · exact absurd (hnone hfsp p0 hp0) (by omega)
    · exact ⟨p, rfl, (hsome p hfsp).1, (hsome p hfsp).2.2.2⟩
  · intro hno
    rcases hfsp : FindShortestPath g frm toE frc maxPathLength with - | p
    · rfl
    · obtain ⟨hpath, hle, -, -⟩ := hsome p hfsp
      exact absurd ⟨p, hpath, hle⟩ hno

/-- Well-formedness of the witness graph `gW`: outgoing edges live in the
edge list. -/
lemma gW_wf : ∀ j, ∀ x ∈ gW.getOutgoingEdges j, x ∈ gW.edgeList := by
  intro j x hx
  by_cases h0 : j = 0
  · simp only [gW, h0, if_pos rfl] at hx
    rcases List.mem_singleton.mp hx with rfl
    decide
  · by_cases h1 : j = 1
    · simp only [gW, h0, h1, if_neg, if_pos rfl, reduceIte] at hx
      rcases List.mem_cons.mp hx with rfl | hx'
      · decide
      · rcases List.mem_singleton.mp hx' with rfl
        decide
    · simp only [gW, h0, h1, reduceIte] at hx
      cases hx

/-- Witness for C1: on `gW` the two-edge path `[1, 2]` has score 7 within
budget 30, so the search returns a minimal path. -/
theorem c1_find_shortest_path_optimal_witness :
    ∃ p, FindShortestPath gW 1 2 FunctionalRoadClass.FRC0 20 = some p ∧
      IsPath gW 1 p 2 ∧
      ∀ p', IsPath gW 1 p' 2 → pathScore gW p ≤ pathScore gW p' :=
  (c1_find_shortest_path_optimal gW 1 2 FunctionalRoadClass.FRC0 20 gW_wf
      (by decide) (by decide)).1
    ⟨[1] ++ [2], IsPath.snoc IsPath.base (by decide), by decide⟩

/-! ### C5: shape of the search splice -/

/-- C5: When `from` and `to` share no edges (overlap length 0) and the
shortest-path search between the boundary edges succeeds with sub-path `P`,
the output of `ConnectAdjacentCandidateLines` is `from` without its last
edge, then `P`, then `to` without its first edge; the boundary edges
`from.last` and `to.first` appear exactly once in the output, as `P`'s own
endpoints. -/
theorem c5_search_splice_shape (g : Graph) (A B : List Edge)
    (frc : FunctionalRoadClass) (d : Nat) (P : List Edge)
    (hwf1 : ∀ j, ∀ x ∈ g.getOutgoingEdges j, x ∈ g.edgeList)
    (hwf2 : g.edgeList.Nodup) (hfrm : A.getLastI ∈ g.edgeList)
    (hA : A ≠ []) (hB : B ≠ []) (hAnd : A.Nodup) (hBnd : B.Nodup)
    (hdisj : ∀ e, e ∈ A → e ∉ B)
    (hsearch : FindShortestPath g A.getLastI B.headI frc d = some P) :
    ConnectAdjacentCandidateLines g A B frc d =
        some (A.dropLast ++ P ++ B.tail) ∧
      P.head? = some A.getLastI ∧ P.getLast? = some B.headI ∧
      (A.dropLast ++ P ++ B.tail).count A.getLastI = 1 ∧
      (A.dropLast ++ P ++ B.tail).count B.headI = 1 := by
  obtain ⟨hP, -, hPnd, -⟩ :=
    (findShortestPath_spec g A.getLastI B.headI frc d hwf1 hwf2 hfrm).1 P hsearch
  have hPhead : P.head? = some A.getLastI := hP.head_eq
  have hPlast : P.getLast? = some B.headI := hP.getLast_eq
  have hfilter : A.filter (fun e => decide (e ∈ B)) = [] := by
    rw [List.filter_eq_nil_iff]
    intro e he
    simp only [decide_eq_true_eq]
    exact hdisj e he
  have hIL : IntersectionLen A B = 0 := by
    rw [intersectionLen_eq_filter B hAnd, hfilter]
    rfl
  have hpref : PrefEqualsSuff A B (IntersectionLen A B) := by
    unfold PrefEqualsSuff
    rw [hIL, Nat.sub_zero, List.drop_length, List.take_zero]
  have hskip : PathOverlappingLen A B = 0 := by
    unfold PathOverlappingLen
    rw [if_pos hpref, hIL]
    rfl
  have hconn : ConnectAdjacentCandidateLines g A B frc d =
      some (A.dropLast ++ P ++ B.tail) := by
    unfold ConnectAdjacentCandidateLines
    dsimp only
    rw [hskip]
    rw [if_neg (by simp), hsearch]
  -- membership and count facts
  have hxlast : A.getLast? = some A.getLastI := by
    rw [List.getLastI_eq_getLast?, List.getLast?_eq_getLast_of_ne_nil hA]
  have hxA : A.getLastI ∈ A := List.mem_of_getLast?_eq_some hxlast
  have hsplitA : A.dropLast ++ [A.getLastI] = A :=
    List.dropLast_append_getLast? _ ((Option.mem_def).mpr hxlast)
  have hx_dropLast : A.dropLast.count A.getLastI = 0 := by
    have hcA : A.count A.getLastI = 1 := by
      have h1 := (List.nodup_iff_count_le_one.mp hAnd) A.getLastI
      have h2 := List.count_pos_iff.mpr hxA
      omega
    have := congrArg (List.count A.getLastI) hsplitA
    rw [List.count_append, List.count_cons_self, List.count_nil] at this
    omega
  have hxP : P.count A.getLastI = 1 := by
    have hmem : A.getLastI ∈ P := List.mem_of_mem_head? (by rw [hPhead]; rfl)
    have h1 := (List.nodup_iff_count_le_one.mp hPnd) A.getLastI
    have h2 := List.count_pos_iff.mpr hmem
    omega
  obtain ⟨b, bs, rfl⟩ : ∃ b bs, B = b :: bs := by
    cases B with
    | nil => exact absurd rfl hB
    | cons b bs => exact ⟨b, bs, rfl⟩
  have hyB : (b :: bs).headI = b := rfl
  have hx_tail : bs.count A.getLastI = 0 := by
    rw [List.count_eq_zero]
    intro hmem
    exact hdisj A.getLastI hxA (List.mem_cons_of_mem _ hmem)
  have hyP : P.count ((b :: bs).headI) = 1 := by
    have hmem : (b :: bs).headI ∈ P := List.mem_of_getLast?_eq_some hPlast
    have h1 := (List.nodup_iff_count_le_one.mp hPnd) ((b :: bs).headI)
    have h2 := List.count_pos_iff.mpr hmem
    omega
  have hy_dropLast : A.dropLast.count ((b :: bs).headI) = 0 := by
    rw [List.count_eq_zero]
    intro hmem
    have hmemA : (b :: bs).headI ∈ A := List.dropLast_subset A hmem
    exact hdisj _ hmemA (by rw [hyB]; exact List.mem_cons_self _ _)
  have hy_tail : bs.count ((b :: bs).headI) = 0 := by
    rw [List.count_eq_zero, hyB]
    exact (List.nodup_cons.mp hBnd).1
  refine ⟨hconn, hPhead, hPlast, ?_, ?_⟩
  · simp only [List.count_append, List.tail_cons]
    omega
  · simp only [List.count_append, List.tail_cons]
    omega

/-- Witness for C5 on `gW`: candidates `[1]` and `[3]` are disjoint and the
search finds `[1, 3]`. -/
theorem c5_search_splice_shape_witness :
    ConnectAdjacentCandidateLines gW [1] [3] FunctionalRoadClass.FRC0 20 =
        some (([1] : List Edge).dropLast ++ [1, 3] ++ ([3] : List Edge).tail) ∧
      ([1, 3] : List Edge).head? = some ([1] : List Edge).getLastI ∧
      ([1, 3] : List Edge).getLast? = some ([3] : List Edge).headI ∧
      (([1] : List Edge).dropLast ++ [1, 3] ++
        ([3] : List Edge).tail).count ([1] : List Edge).getLastI = 1 ∧
      (([1] : List Edge).dropLast ++ [1, 3] ++
        ([3] : List Edge).tail).count ([3] : List Edge).headI = 1 :=
  c5_search_splice_shape gW [1] [3] FunctionalRoadClass.FRC0 20 [1, 3] gW_wf
    (by decide) (by decide) (by decide) (by decide) (by decide) (by decide)
    (by decide) (by decide)

end OpenLR
